import Mathlib

/-!
# csvdb: the in-memory record engine

A shallow embedding of `csvdb.go` and `utils.go`.

* A `*Row` is an address into a store of `Row` objects (`Heap`); an address
  outside the store stands for a pointer that cannot be dereferenced (`nil`),
  and dereferencing it is a run-time panic. `Table.Rows` is a list of such
  addresses, so that the identity comparison `row == rowToDelete` of `Delete`
  and the in-place writes of `Update` and `Upsert` are what they are in Go.
* A `[]string` is a list owned by the `Row` that holds it, and a `*Column` is
  given by its contents: the program never compares columns by identity and
  never writes to one after it is built.
* A `map[string]string` is what a `range` loop sees of it: a family of
  enumerations of its entries, one per loop, since Go fixes no iteration
  order and the order may change from one loop to the next.
* A method returns either normally (with its `error` value and the state it
  leaves behind) or by a run-time panic (index out of range, nil dereference).
* `CreateTable` and `Open` run on an explicit file system (directories and files
  keyed by their path elements); `encoding/csv` and `strconv` are parameters.
-/

namespace Csvdb

/-! ## Data model (`csvdb.go`, lines 11-39) -/

/-- The struct `Column`; the field `Type` is spelled `Type_`. -/
structure Column where
  Name : String
  Type_ : String
deriving DecidableEq, Repr

/-- The struct `Row`. -/
structure Row where
  Values : List String
deriving DecidableEq, Repr

/-- A `*Row`: the address of a `Row` object in the store. -/
abbrev RowPtr := Nat

/-- The store of `Row` objects; `h[p]?` dereferences the pointer `p`. -/
abbrev Heap := List Row

/-- The struct `Table`; `Rows` is a `[]*Row`. -/
structure Table where
  Name : String
  Columns : List Column
  Rows : List RowPtr
deriving DecidableEq, Repr

/-- A Go `map[string]string` as the loops of the program see it: `visit k` lists
the entries in the order in which the `k`-th `range` over the map yields them. -/
structure StrMap where
  visit : Nat → List (String × String)

/-- The map whose every `range` loop yields `entries` in the order written. -/
def StrMap.ofList (entries : List (String × String)) : StrMap :=
  ⟨fun _ => entries⟩

/-- The map as seen after `n` of its `range` loops have already run. -/
def StrMap.after (m : StrMap) (n : Nat) : StrMap :=
  ⟨fun k => m.visit (n + k)⟩

/-- The map `m` holds exactly `entries` (one entry per key): every `range` over
it yields a permutation of `entries`. -/
def StrMap.Represents (m : StrMap) (entries : List (String × String)) : Prop :=
  (entries.map Prod.fst).Nodup ∧ ∀ k, (m.visit k).Perm entries

/-- The struct `Query`; the field `Type` is spelled `Type_`. -/
structure Query where
  Type_ : String
  Table : String
  Columns : List String
  Conditions : StrMap
  Limit : Int
  Offset : Int

/-- The struct `Database`; `Tables` is the `map[string]*Table`, as an
association list read by first match. -/
structure Database where
  Path : String
  Version : Int
  Tables : List (String × Table)

/-- What a function that reads the state returns: a value with a nil error, a
non-nil error, or a run-time panic. -/
inductive Res (α : Type) where
  | ok (a : α)
  | error (msg : String)
  | panic
deriving DecidableEq, Repr

/-- What a method that mutates a table does: it returns a nil error or a
non-nil error, leaving the table and the store as given, or it panics. -/
inductive Effect where
  | nil (t : Table) (h : Heap)
  | error (msg : String) (t : Table) (h : Heap)
  | panic
deriving DecidableEq, Repr

/-! ## Column resolution -/

/-- The loop `for i, c := range t.Columns { if c.Name == name { index = i; break } }`,
started at index `i`; `none` is the sentinel `-1` (or `found == false`). -/
def findColumnFrom (name : String) : Nat → List Column → Option Nat
  | _, [] => none
  | i, c :: cs => if c.Name = name then some i else findColumnFrom name (i + 1) cs

/-- The index of the first column called `name`, if any. -/
def findColumn (cols : List Column) (name : String) : Option Nat :=
  findColumnFrom name 0 cols

/-- The first loop of `Select` and `Update`: the index of every requested
column, or the first requested name that no column has. -/
def resolveColumns (cols : List Column) : List String → Except String (List Nat)
  | [] => .ok []
  | colName :: rest =>
    match findColumn cols colName with
    | none => .error colName
    | some j =>
      match resolveColumns cols rest with
      | .ok js => .ok (j :: js)
      | .error e => .error e

/-! ## Row filtering (`Delete` 43-64, `Update` 93-110, `Select` 136-157) -/

/-- The result of the loop over the conditions for one row. -/
inductive Verdict where
  | matched (b : Bool)
  | unknown (column : String)
  | panic
deriving DecidableEq, Repr

/-- The loop `for column, value := range conditions` for the row at `row`,
visiting the conditions in the given order: an unknown column returns an
error, a value that differs ends the loop with `match = false`. -/
def checkRow (cols : List Column) (h : Heap) (row : RowPtr) :
    List (String × String) → Verdict
  | [] => .matched true
  | (column, value) :: rest =>
    match findColumn cols column with
    | none => .unknown column
    | some i =>
      match h[row]? with
      | none => .panic
      | some r =>
        match r.Values[i]? with
        | none => .panic
        | some v => if v ≠ value then .matched false else checkRow cols h row rest

/-- The result of the loop over the rows that collects the matching ones. -/
inductive Scan where
  | rows (ps : List RowPtr)
  | unknown (column : String)
  | panic
deriving DecidableEq, Repr

/-- The loop `for _, row := range t.Rows` of `Select` and `Delete`, from its
`k`-th iteration on: the rows that match are appended in order. -/
def scanRows (cols : List Column) (h : Heap) (conditions : StrMap) :
    Nat → List RowPtr → Scan
  | _, [] => .rows []
  | k, row :: rest =>
    match checkRow cols h row (conditions.visit k) with
    | .unknown c => .unknown c
    | .panic => .panic
    | .matched b =>
      match scanRows cols h conditions (k + 1) rest with
      | .rows ps => .rows (if b then row :: ps else ps)
      | .unknown c => .unknown c
      | .panic => .panic

/-! ## `Select` (lines 120-168) -/

/-- The loop `for j, colIndex := range colIndexes { projectedValues[j] = row.Values[colIndex] }`;
`none` is an index out of range or a nil row. -/
def projectRow (h : Heap) (row : RowPtr) : List Nat → Option (List String)
  | [] => some []
  | colIndex :: rest =>
    match h[row]? with
    | none => none
    | some r =>
      match r.Values[colIndex]? with
      | none => none
      | some v =>
        match projectRow h row rest with
        | none => none
        | some vs => some (v :: vs)

/-- The loop `for i, row := range filteredRows`; the rows it builds are new
objects, given here by their contents. -/
def projectRows (h : Heap) (colIndexes : List Nat) : List RowPtr → Option (List Row)
  | [] => some []
  | row :: rest =>
    match projectRow h row colIndexes with
    | none => none
    | some vs =>
      match projectRows h colIndexes rest with
      | none => none
      | some rs => some (⟨vs⟩ :: rs)

/-- The method `(t *Table) Select`. -/
def Table.Select (t : Table) (h : Heap) (columns : List String) (conditions : StrMap) :
    Res (List Row) :=
  match resolveColumns t.Columns columns with
  | .error colName => .error ("column " ++ colName ++ " not found")
  | .ok colIndexes =>
    match scanRows t.Columns h conditions 0 t.Rows with
    | .unknown colName => .error ("column " ++ colName ++ " not found in conditions")
    | .panic => .panic
    | .rows filteredRows =>
      match projectRows h colIndexes filteredRows with
      | none => .panic
      | some projectedRows => .ok projectedRows

/-! ## `Delete` (lines 41-76) -/

/-- The inner loop of the second phase of `Delete`: the first element of
`t.Rows` that is the pointer `rowToDelete` is cut out, the others keep their order. -/
def removeRow (rowToDelete : RowPtr) : List RowPtr → List RowPtr
  | [] => []
  | row :: rest => if row = rowToDelete then rest else row :: removeRow rowToDelete rest

/-- The method `(t *Table) Delete`. -/
def Table.Delete (t : Table) (h : Heap) (conditions : StrMap) : Effect :=
  match scanRows t.Columns h conditions 0 t.Rows with
  | .unknown column => .error ("column " ++ column ++ " not found") t h
  | .panic => .panic
  | .rows rowsToDelete =>
    .nil { t with Rows := rowsToDelete.foldl (fun rows d => removeRow d rows) t.Rows } h

/-! ## `Update` (lines 78-118) -/

/-- The loop `for i, column := range columnIndices { row.Values[column] = values[i] }`
from its `i`-th iteration on; `none` is an index out of range or a nil row. -/
def writeRow (values : List String) (row : RowPtr) : Nat → List Nat → Heap → Option Heap
  | _, [], h => some h
  | i, column :: rest, h =>
    match values[i]? with
    | none => none
    | some v =>
      match h[row]? with
      | none => none
      | some r =>
        if column < r.Values.length then
          writeRow values row (i + 1) rest (h.set row ⟨r.Values.set column v⟩)
        else none

/-- The loop `for _, row := range t.Rows` of `Update`, from its `k`-th iteration on. -/
def Table.updateLoop (t : Table) (columnIndices : List Nat) (values : List String)
    (conditions : StrMap) : Nat → List RowPtr → Heap → Effect
  | _, [], h => .nil t h
  | k, row :: rest, h =>
    match checkRow t.Columns h row (conditions.visit k) with
    | .unknown c => .error ("condition column " ++ c ++ " not found") t h
    | .panic => .panic
    | .matched false => Table.updateLoop t columnIndices values conditions (k + 1) rest h
    | .matched true =>
      match writeRow values row 0 columnIndices h with
      | none => .panic
      | some h1 => Table.updateLoop t columnIndices values conditions (k + 1) rest h1

/-- The method `(t *Table) Update`. -/
def Table.Update (t : Table) (h : Heap) (columns values : List String)
    (conditions : StrMap) : Effect :=
  match resolveColumns t.Columns columns with
  | .error column => .error ("column " ++ column ++ " not found") t h
  | .ok columnIndices => t.updateLoop columnIndices values conditions 0 t.Rows h

/-! ## `Upsert` and `Insert` (lines 170-204, `utils.go` 18-28) -/

/-- The loop of `rowMatches` from index `i` on; `none` is an index out of range. -/
def rowMatchesFrom (values2 : List String) : Nat → List String → Option Bool
  | _, [] => some true
  | i, value :: rest =>
    match values2[i]? with
    | none => none
    | some v2 => if value ≠ v2 then some false else rowMatchesFrom values2 (i + 1) rest

/-- The function `rowMatches`. -/
def rowMatches (row1 row2 : Row) : Option Bool :=
  if row1.Values.length ≠ row2.Values.length then some false
  else rowMatchesFrom row2.Values 0 row1.Values

/-- The loop of `getMatchingRow` over the remaining rows. -/
def getMatchingRowIn (h : Heap) (row : Row) : List RowPtr → Res (Option RowPtr)
  | [] => .ok none
  | existingRow :: rest =>
    match h[existingRow]? with
    | none => .panic
    | some r =>
      match rowMatches r row with
      | none => .panic
      | some true => .ok (some existingRow)
      | some false => getMatchingRowIn h row rest

/-- The method `(t *Table) getMatchingRow`; the candidate row is given by its contents. -/
def Table.getMatchingRow (t : Table) (h : Heap) (row : Row) : Res (Option RowPtr) :=
  getMatchingRowIn h row t.Rows

/-- The builtin `copy(dst, src)`: the first `min (len dst) (len src)` elements
of `dst` are overwritten, the result is the new contents of `dst`. -/
def copy (dst src : List String) : List String :=
  src.take dst.length ++ dst.drop src.length

/-- The method `(t *Table) updateRow`; `none` is a nil row. -/
def Table.updateRow (_t : Table) (h : Heap) (existingRow : RowPtr) (row : List String) :
    Option Heap :=
  match h[existingRow]? with
  | none => none
  | some r => some (h.set existingRow ⟨copy r.Values row⟩)

/-- The method `(t *Table) Upsert`; the new row is allocated at the end of the store. -/
def Table.Upsert (t : Table) (h : Heap) (row : List String) : Effect :=
  match t.getMatchingRow h ⟨row⟩ with
  | .panic => .panic
  | .error err => .error err t h
  | .ok (some existingRow) =>
    match t.updateRow h existingRow row with
    | none => .panic
    | some h1 => .nil t h1
  | .ok none => .nil { t with Rows := t.Rows ++ [h.length] } (h ++ [⟨row⟩])

/-- The message of `Insert`. -/
def insertError (expected got : Nat) : String :=
  "invalid number of columns in row, expected " ++ toString expected ++ " got " ++ toString got

/-- The method `(t *Table) Insert`; the new row is allocated at the end of the store. -/
def Table.Insert (t : Table) (h : Heap) (row : List String) : Effect :=
  if row.length ≠ t.Columns.length then
    .error (insertError t.Columns.length row.length) t h
  else .nil { t with Rows := t.Rows ++ [h.length] } (h ++ [⟨row⟩])

/-! ## `GetTable` and `Execute` (lines 206-246) -/

/-- The method `(db *Database) GetTable`. -/
def Database.GetTable (db : Database) (name : String) : Res Table :=
  match db.Tables.lookup name with
  | some table => .ok table
  | none => .error ("table " ++ name ++ " does not exist")

/-- The inner loop of the validation in `Execute`: is some column called `column`. -/
def hasColumn (column : String) : List Column → Bool
  | [] => false
  | tableColumn :: rest => if tableColumn.Name = column then true else hasColumn column rest

/-- The loop `for column := range query.Conditions` of `Execute`: the first
visited key that is not a column, if any. -/
def invalidCondition (cols : List Column) : List (String × String) → Option String
  | [] => none
  | (column, _) :: rest =>
    if hasColumn column cols then invalidCondition cols rest else some column

/-- The slice expression `rows[offset:limit]` on a slice whose capacity is its
length; `none` is the panic for bounds out of range. -/
def sliceRows (rows : List Row) (offset limit : Int) : Option (List Row) :=
  if 0 ≤ offset ∧ offset ≤ limit ∧ limit ≤ (rows.length : Int) then
    some ((rows.take limit.toNat).drop offset.toNat)
  else none

/-- The pagination of `Execute` (lines 227-238). -/
def paginate (rows : List Row) (Limit Offset : Int) : Option (List Row) :=
  if Limit > 0 ∨ Offset > 0 then
    let limit : Int := if Limit > 0 ∧ Limit < (rows.length : Int) then Limit else (rows.length : Int)
    let offset : Int := if Offset > 0 ∧ Offset < limit then Offset else 0
    sliceRows rows offset limit
  else some rows

/-- The method `(db *Database) Execute`. -/
def Database.Execute (db : Database) (h : Heap) (query : Query) : Res (List Row) :=
  match db.GetTable query.Table with
  | .error err => .error err
  | .panic => .panic
  | .ok table =>
    match invalidCondition table.Columns (query.Conditions.visit 0) with
    | some column => .error ("invalid query condition: " ++ column ++ " is not a valid column")
    | none =>
      match table.Select h query.Columns (query.Conditions.after 1) with
      | .error err => .error err
      | .panic => .panic
      | .ok rows =>
        match paginate rows query.Limit query.Offset with
        | none => .panic
        | some page => .ok page

/-! ## Specification vocabulary -/

/-- The names of the columns of a table, in order. -/
def Table.names (t : Table) : List String := t.Columns.map Column.Name

/-- The row satisfies all conditions: its value at the index of column `k` is `v`
for every entry `(k, v)`. -/
def Satisfies (names : List String) (entries : List (String × String)) (r : Row) : Prop :=
  ∀ kv ∈ entries, r.Values[names.indexOf kv.1]? = some kv.2

instance (names : List String) (entries : List (String × String)) (r : Row) :
    Decidable (Satisfies names entries r) := by
  unfold Satisfies; infer_instance

/-- The projection of a row onto the requested columns, value by value. -/
def Projection (names columns : List String) (r : Row) : List (Option String) :=
  columns.map (fun c => r.Values[names.indexOf c]?)

/-- The rows of the table are the objects `rs`, in order. -/
def Table.HoldsRows (t : Table) (h : Heap) (rs : List Row) : Prop :=
  t.Rows.map (fun p => h[p]?) = rs.map some

/-- The row at `p` exists and satisfies all conditions. -/
def rowSatisfies (names : List String) (entries : List (String × String)) (h : Heap)
    (p : RowPtr) : Bool :=
  match h[p]? with
  | some r => decide (Satisfies names entries r)
  | none => false

instance (t : Table) (h : Heap) (rs : List Row) : Decidable (t.HoldsRows h rs) := by
  unfold Table.HoldsRows; infer_instance

/-- The effective limit of the pagination, in the words of the specification:
`min(Limit, len(rows))` when `Limit > 0`, else `len(rows)`. -/
def effectiveLimit (Limit : Int) (n : Nat) : Int :=
  if Limit > 0 then min Limit (n : Int) else (n : Int)

/-- The effective offset of the pagination, in the words of the specification:
`Offset` when `0 < Offset < limit`, else `0`. -/
def effectiveOffset (Offset limit : Int) : Int :=
  if 0 < Offset ∧ Offset < limit then Offset else 0

/-- The value that a sequence of writes `(index, value)` leaves at position `j`:
that of the last write at `j`, if there is one. -/
def lastWrite : List (Nat × String) → Nat → Option String
  | [], _ => none
  | w :: ws, j =>
    match lastWrite ws j with
    | some v => some v
    | none => if w.1 = j then some w.2 else none

/-- The writes of `Update` to a matching row, as pairs `(index of columns[i], values[i])`. -/
def writesOf (names columns values : List String) : List (Nat × String) :=
  (columns.map (fun c => names.indexOf c)).zip values

/-- The writes carried out one after the other on the values of a row. -/
def applyWrites (ws : List (Nat × String)) (vs : List String) : List String :=
  ws.foldl (fun acc w => acc.set w.1 w.2) vs

/-- What `Update` makes of a row: the writes when it satisfies the conditions,
the row itself otherwise. -/
def updatedRow (names : List String) (entries : List (String × String))
    (columns values : List String) (r : Row) : Row :=
  if Satisfies names entries r then ⟨applyWrites (writesOf names columns values) r.Values⟩ else r

/-! ## The tables of `csvdb_test.go` -/

/-- The table of `TestExecute`, its rows at the addresses 0, 1 and 2. -/
def executeTable : Table :=
  ⟨"test_table", [⟨"id", "int"⟩, ⟨"name", "string"⟩], [0, 1, 2]⟩

/-- The rows of `TestExecute`. -/
def executeRows : List Row :=
  [⟨["1", "Alice"]⟩, ⟨["2", "Bob"]⟩, ⟨["3", "Chuck"]⟩]

/-- The database of `TestExecute`. -/
def executeDb : Database :=
  ⟨"/test/db", 1, [("test_table", executeTable)]⟩

/-- The table of `TestInsert`, its rows at the addresses 0 and 1. -/
def insertTable : Table :=
  ⟨"test_table", [⟨"column1", "int"⟩, ⟨"column2", "string"⟩], [0, 1]⟩

/-- The rows of `TestInsert`. -/
def insertRows : List Row :=
  [⟨["1", "row1"]⟩, ⟨["2", "row2"]⟩]

/-- The table of `TestUpsert` when `Update existing row` starts: three rows. -/
def upsertTable : Table :=
  ⟨"test_table", [⟨"id", "string"⟩, ⟨"name", "string"⟩], [0, 1, 2]⟩

/-- The rows of `TestUpsert` when `Update existing row` starts. -/
def upsertRows : List Row :=
  [⟨["1", "Alice"]⟩, ⟨["2", "Bob"]⟩, ⟨["3", "Charlie"]⟩]

/-- The query of `TestExecute` with `Limit: 1`. -/
def limitQuery : Query :=
  ⟨"select", "test_table", ["id", "name"], StrMap.ofList [], 1, 0⟩

/-- The query of `TestExecute` with `Offset: 1`. -/
def offsetQuery : Query :=
  ⟨"select", "test_table", ["id", "name"], StrMap.ofList [], 0, 1⟩

/-- The query of `TestExecute` with the condition `name = "David"`. -/
def davidQuery : Query :=
  ⟨"select", "test_table", ["id", "name"], StrMap.ofList [("name", "David")], 0, 0⟩

/-- A query on the table of `TestExecute` with a negative limit and an offset
beyond the rows. -/
def beyondQuery : Query :=
  ⟨"select", "test_table", ["id", "name"], StrMap.ofList [], -2, 7⟩

/-- The table of `TestExecute` with no rows. -/
def emptyTable : Table :=
  ⟨"test_table", [⟨"id", "int"⟩, ⟨"name", "string"⟩], []⟩

/-- The table and database of `TestGetTable`, its rows at the addresses 0 and 1. -/
def getTableTable : Table :=
  ⟨"test_table", [⟨"column1", "string"⟩, ⟨"column2", "string"⟩, ⟨"column3", "string"⟩], [0, 1]⟩

/-- The database of `TestGetTable`. -/
def getTableDb : Database :=
  ⟨"", 1, [("test_table", getTableTable)]⟩

/-- A query on the table of `TestExecute` with a condition on a column that the
table does not have. -/
def unknownConditionQuery : Query :=
  ⟨"select", "test_table", ["id", "name"], StrMap.ofList [("name", "Bob"), ("age", "7")], 0, 0⟩

/-! ## The file system and the standard library

`CreateTable` and `Open` work on files. A path is the list of its elements and
`filepath.Join` appends elements, which is what it does for elements that are
plain file names; the database root `db.Path` counts as one element. The file
system holds directories and regular files; its operations fail for the reasons
that depend on that state alone (a missing file or parent directory, a file
where a directory is needed). The functions of `encoding/csv` and `strconv` are
taken as they come, as parameters (`Std`). -/

/-- A path, element by element. -/
abbrev Path := List String

/-- The state of the file system: its directories, and its regular files with
their contents. The empty path, above every database root, is a directory. -/
structure FS where
  dirs : List Path
  files : List (Path × String)
deriving DecidableEq, Repr

/-- Is the path a directory. -/
def FS.isDir (fs : FS) (p : Path) : Bool :=
  decide (p = []) || decide (p ∈ fs.dirs)

/-- The contents of the regular file at the path, as `os.Open` and reading it
give them; `none` is an error (no such file, or a directory). -/
def FS.readFile (fs : FS) (p : Path) : Option String :=
  if fs.isDir p then none else fs.files.lookup p

/-- Whether `os.Stat` finds the path. -/
def FS.pathExists (fs : FS) (p : Path) : Bool :=
  fs.isDir p || (fs.files.lookup p).isSome

/-- The file system with the given contents in the file at the path. -/
def FS.writeFile (fs : FS) (p : Path) (content : String) : FS :=
  { fs with files := (p, content) :: fs.files.filter (fun e => decide (e.1 ≠ p)) }

/-- The call `os.MkdirAll` below the directory `base`, element by element: a
regular file on the way is an error (`none`), a missing directory is made. -/
def FS.mkdirFrom (fs : FS) (base : Path) : List String → Option FS
  | [] => some fs
  | e :: rest =>
    if (fs.files.lookup (base ++ [e])).isSome then none
    else if fs.isDir (base ++ [e]) then FS.mkdirFrom fs (base ++ [e]) rest
    else FS.mkdirFrom { fs with dirs := fs.dirs ++ [base ++ [e]] } (base ++ [e]) rest

/-- The call `os.MkdirAll(p, 0755)`; on an error nothing has been made. -/
def FS.mkdirAll (fs : FS) (p : Path) : Option FS :=
  fs.mkdirFrom [] p

/-- The call `os.Create(p)`: the parent must be a directory and the path must not
be one; the file is created, or truncated when it exists. `none` is an error. -/
def FS.create (fs : FS) (p : Path) : Option FS :=
  if fs.isDir p.dropLast && !fs.isDir p then some (fs.writeFile p "") else none

/-- An entry of a directory, as `os.ReadDir` returns it. -/
structure DirEntry where
  Name : String
  IsDir : Bool
deriving DecidableEq, Repr

/-- The name of `q` inside the directory `p`, when `q` lies directly in it. -/
def childName (p q : Path) : Option String :=
  if q.dropLast = p then q.getLast? else none

/-- One step of the sort of the directory entries by file name (the order of the
names character by character). -/
def insertEntry (e : DirEntry) : List DirEntry → List DirEntry
  | [] => [e]
  | x :: xs => if e.Name.toList < x.Name.toList then e :: x :: xs else x :: insertEntry e xs

/-- The directory entries sorted by file name. -/
def sortEntries : List DirEntry → List DirEntry
  | [] => []
  | e :: es => insertEntry e (sortEntries es)

/-- The call `os.ReadDir(p)`: the entries of the directory, sorted by file name;
`none` is an error (no such directory). -/
def FS.readDir (fs : FS) (p : Path) : Option (List DirEntry) :=
  if fs.isDir p then
    some (sortEntries
      (fs.dirs.filterMap (fun q => (childName p q).map (fun n => ⟨n, true⟩)) ++
        fs.files.filterMap (fun f => (childName p f.1).map (fun n => ⟨n, false⟩))))
  else none

/-- The functions of the standard library whose results the program takes as
they come: `csvRead` is `csv.NewReader(file).ReadAll()` on a file with the given
contents (`none` is an error), `csvWrite` is what `csv.NewWriter(file).WriteAll(rows)`
writes, `atoi` is `strconv.Atoi(strings.TrimSpace(s))` (`none` is an error). -/
structure Std where
  csvRead : String → Option (List (List String))
  csvWrite : List (List String) → String
  atoi : String → Option Int

/-- An `error` value: one made by `fmt.Errorf` in this package, or one handed
back by `os`, `encoding/csv` or `strconv`. -/
inductive Err where
  | errorf (msg : String)
  | os (op : String) (path : Path)
  | csv (path : Path)
  | strconv (text : String)
deriving DecidableEq, Repr

deriving instance DecidableEq, Repr for Database

/-- What `CreateTable` does: it returns a nil error or a non-nil error, leaving
the database and the file system as given, or it panics. -/
inductive CreateResult where
  | nil (db : Database) (fs : FS)
  | error (err : Err) (db : Database) (fs : FS)
  | panic
deriving DecidableEq, Repr

/-- What `Open` and its steps return. -/
inductive IORes (α : Type) where
  | ok (a : α)
  | error (err : Err)
  | panic
deriving DecidableEq, Repr

/-! ## `utils.go`: paths and CSV files -/

/-- The function `getCSVFilePath`. -/
def getCSVFilePath (databasePath : Path) (tableName : String) : Path :=
  databasePath ++ [".csvdb", tableName, "data.csv"]

/-- The function `getTablePath`. -/
def getTablePath (databasePath : Path) (tableName : String) : Path :=
  databasePath ++ [".csvdb", tableName]

/-- The function `parseCSV`. -/
def parseCSV (std : Std) (fs : FS) (filename : Path) : Except Err (List (List String)) :=
  match fs.readFile filename with
  | none => .error (.os "open" filename)
  | some content =>
    match std.csvRead content with
    | none => .error (.csv filename)
    | some rows => .ok rows

/-- The function `writeCSV`; `none` is the error of `os.Create`. -/
def writeCSV (std : Std) (fs : FS) (filename : Path) (rows : List (List String)) : Option FS :=
  match fs.create filename with
  | none => none
  | some fs1 => some (fs1.writeFile filename (std.csvWrite rows))

/-! ## `CreateTable` (lines 248-306) -/

/-- The addition of Go's `int` (64 bits, wrapping). -/
def addInt (a b : Int) : Int :=
  (a + b + 2 ^ 63) % 2 ^ 64 - 2 ^ 63

/-- The loop `for i, row := range metadata { if row[0] == name { rowIndex = i; break } }`
from index `i` on; the outer `none` is the panic of `row[0]` on a row without
fields, the inner `none` is the sentinel `-1`. -/
def findMetadataRow (name : String) : Nat → List (List String) → Option (Option Nat)
  | _, [] => some none
  | i, row :: rest =>
    match row[0]? with
    | none => none
    | some field => if field = name then some (some i) else findMetadataRow name (i + 1) rest

/-- The assignments `metadata[rowIndex][1] = ""` and `metadata[rowIndex][2] = ""`;
`none` is an index out of range. -/
def clearMetadataRow (metadata : List (List String)) (rowIndex : Nat) :
    Option (List (List String)) :=
  match metadata[rowIndex]? with
  | none => none
  | some row =>
    if 1 < row.length ∧ 2 < row.length then
      some (metadata.set rowIndex ((row.set 1 "").set 2 ""))
    else none

/-- The method `(db *Database) CreateTable`; the map `db.Tables` is taken to be
non-nil. -/
def Database.CreateTable (std : Std) (db : Database) (fs : FS) (name : String)
    (columns : List String) : CreateResult :=
  match db.Tables.lookup name with
  | some _ => .error (.errorf ("table " ++ name ++ " already exists")) db fs
  | none =>
    match fs.mkdirAll (getTablePath [db.Path] name) with
    | none => .error (.os "mkdir" (getTablePath [db.Path] name)) db fs
    | some fs1 =>
      match fs1.create (getCSVFilePath (getTablePath [db.Path] name) "data") with
      | none => .error (.os "open" (getCSVFilePath (getTablePath [db.Path] name) "data")) db fs1
      | some fs2 =>
        let fs3 := fs2.writeFile (getCSVFilePath (getTablePath [db.Path] name) "data")
          (String.intercalate "," columns ++ "\n")
        let table : Table := ⟨name, columns.map (fun columnName => ⟨columnName, "string"⟩), []⟩
        let db1 : Database := { db with Tables := (name, table) :: db.Tables }
        match parseCSV std fs3 [db.Path, "metadata.csv"] with
        | .error err => .error err db1 fs3
        | .ok metadata =>
          match findMetadataRow name 0 metadata with
          | none => .panic
          | some found =>
            match clearMetadataRow
                (if found.isNone then metadata ++ [[name, "", ""]] else metadata)
                (found.getD metadata.length) with
            | none => .panic
            | some metadata1 =>
              match writeCSV std fs3 [db.Path, "metadata.csv"] metadata1 with
              | none => .error (.os "open" [db.Path, "metadata.csv"]) db1 fs3
              | some fs4 => .nil { db1 with Version := addInt db.Version 1 } fs4

/-! ## `Open` (lines 308-379) -/

/-- The loop `for _, column := range columns { if column.Name == columnName { column.Type = columnType; break } }`. -/
def setColumnType (columnName columnType : String) : List Column → List Column
  | [] => []
  | column :: rest =>
    if column.Name = columnName then { column with Type_ := columnType } :: rest
    else column :: setColumnType columnName columnType rest

/-- The loop `for _, metadataRow := range metadataRows` for one table; `none` is
an index out of range in a metadata row. -/
def applyMetadata (tableName : String) : List (List String) → List Column → Option (List Column)
  | [], columns => some columns
  | metadataRow :: rest, columns =>
    match metadataRow[0]? with
    | none => none
    | some field0 =>
      if field0 = tableName then
        match metadataRow[1]? with
        | none => none
        | some field1 =>
          if field1 ≠ "" then
            match metadataRow[2]? with
            | none => none
            | some field2 => applyMetadata tableName rest (setColumnType field1 field2 columns)
          else applyMetadata tableName rest columns
      else applyMetadata tableName rest columns

/-- The loop `for _, rowValues := range tableRows[1:]`: each row is a new object
at the end of the store, appended to `table.Rows`. -/
def appendRows : List (List String) → List RowPtr → Heap → List RowPtr × Heap
  | [], rows, h => (rows, h)
  | rowValues :: rest, rows, h => appendRows rest (rows ++ [h.length]) (h ++ [⟨rowValues⟩])

/-- The body of the loop over the table directories of `Open` for one directory. -/
def loadTable (std : Std) (fs : FS) (path : String) (metadataRows : List (List String))
    (h : Heap) (tableName : String) : IORes (Table × Heap) :=
  match parseCSV std fs (getCSVFilePath [path] tableName) with
  | .error err => .error err
  | .ok [] => .panic
  | .ok (header :: dataRows) =>
    match applyMetadata tableName metadataRows
        (header.map (fun columnName => ⟨columnName, "string"⟩)) with
    | none => .panic
    | some columns =>
      .ok (⟨tableName, columns, (appendRows dataRows [] h).1⟩, (appendRows dataRows [] h).2)

/-- The loop `for _, tableDir := range tablesDir` of `Open`. -/
def openTables (std : Std) (fs : FS) (path : String) (metadataRows : List (List String)) :
    List DirEntry → List (String × Table) → Heap → IORes (List (String × Table) × Heap)
  | [], tables, h => .ok (tables, h)
  | tableDir :: rest, tables, h =>
    if !tableDir.IsDir then openTables std fs path metadataRows rest tables h
    else
      match loadTable std fs path metadataRows h tableDir.Name with
      | .error err => .error err
      | .panic => .panic
      | .ok (table, h1) =>
        openTables std fs path metadataRows rest ((tableDir.Name, table) :: tables) h1

/-- The method `(db *Database) Open`; the receiver is not used. -/
def Database.Open (_db : Database) (std : Std) (fs : FS) (h : Heap) (path : String) :
    IORes (Database × Heap) :=
  if !fs.pathExists [path] then .error (.os "stat" [path])
  else
    match fs.readFile [path, "version.txt"] with
    | none => .error (.os "open" [path, "version.txt"])
    | some versionContent =>
      match std.atoi versionContent with
      | none => .error (.strconv versionContent)
      | some version =>
        match parseCSV std fs [path, "metadata.csv"] with
        | .error err => .error err
        | .ok metadataRows =>
          match fs.readDir [path, ".csvdb"] with
          | none => .error (.os "open" [path, ".csvdb"])
          | some tablesDir =>
            match openTables std fs path metadataRows tablesDir [] h with
            | .error err => .error err
            | .panic => .panic
            | .ok (tables, h1) => .ok (⟨path, version, tables⟩, h1)

/-! ## A standard library for plain text

The tests and the examples below read files without quotes and carriage
returns; on such text the reader of `encoding/csv` splits records at newlines
and fields at commas, skips empty lines and wants every record as long as the
first. The writer and `strconv.Atoi(strings.TrimSpace(s))` are the library's:
quoted fields, white space trimmed at both ends, an optional sign, the range of
a 64-bit `int`. -/

/-- The pieces of the text between the separators. -/
def splitAt (sep : Char) : List Char → List (List Char)
  | [] => [[]]
  | c :: cs =>
    if c = sep then [] :: splitAt sep cs
    else
      match splitAt sep cs with
      | [] => [[c]]
      | piece :: pieces => (c :: piece) :: pieces

/-- The CSV reader on plain text; text with a quote or a carriage return is
outside its domain and gives an error. -/
def plainCsvRead (s : String) : Option (List (List String)) :=
  if s.toList.any (fun c => decide (c = '"') || decide (c = '\r')) then none
  else
    match ((splitAt '\n' s.toList).filter (fun line => decide (line ≠ []))).map
        (fun line => (splitAt ',' line).map String.mk) with
    | [] => some []
    | first :: rest =>
      if rest.all (fun record => decide (record.length = first.length)) then some (first :: rest)
      else none

/-- The function `unicode.IsSpace`. -/
def isSpace (c : Char) : Bool :=
  decide (c.toNat = 9 ∨ c.toNat = 10 ∨ c.toNat = 11 ∨ c.toNat = 12 ∨ c.toNat = 13 ∨
    c.toNat = 32 ∨ c.toNat = 0x85 ∨ c.toNat = 0xA0 ∨ c.toNat = 0x1680 ∨
    (0x2000 ≤ c.toNat ∧ c.toNat ≤ 0x200A) ∨ c.toNat = 0x2028 ∨ c.toNat = 0x2029 ∨
    c.toNat = 0x202F ∨ c.toNat = 0x205F ∨ c.toNat = 0x3000)

/-- Whether the CSV writer quotes the field: a field that is `\.`, holds a
newline, a carriage return, a quote or a comma, or begins with white space; the
empty field is written bare. -/
def fieldNeedsQuotes (field : String) : Bool :=
  match field.toList with
  | [] => false
  | c :: cs =>
    decide (c :: cs = [Char.ofNat 92, '.']) ||
      (c :: cs).any (fun x =>
        decide (x = '\n') || decide (x = '\r') || decide (x = '"') || decide (x = ',')) ||
      isSpace c

/-- A quoted field: between quotes, every quote of the field doubled. -/
def quoteField (field : String) : String :=
  String.mk ('"' :: (field.toList.map (fun x => if x = '"' then [x, x] else [x])).flatten ++ ['"'])

/-- The CSV writer (`UseCRLF` off): a line per record, commas between fields,
the fields that need it quoted. -/
def plainCsvWrite (rows : List (List String)) : String :=
  String.join (rows.map (fun row =>
    String.intercalate "," (row.map (fun field =>
      if fieldNeedsQuotes field then quoteField field else field)) ++ "\n"))

/-- The value of a run of decimal digits read after the value `acc`. -/
def readDigits : List Char → Nat → Option Nat
  | [], acc => some acc
  | c :: cs, acc =>
    if '0'.toNat ≤ c.toNat ∧ c.toNat ≤ '9'.toNat then readDigits cs (acc * 10 + (c.toNat - '0'.toNat))
    else none

/-- The function `strings.TrimSpace` on the characters of the text. -/
def trimSpace (text : List Char) : List Char :=
  ((text.dropWhile isSpace).reverse.dropWhile isSpace).reverse

/-- The reading of an integer, `strconv.Atoi(strings.TrimSpace(s))`: white space
trimmed at both ends, an optional sign, then decimal digits and nothing else,
the value within the 64 bits of an `int`. -/
def plainAtoi (s : String) : Option Int :=
  match trimSpace s.toList with
  | [] => none
  | c :: cs =>
    if c = '-' then
      match cs, readDigits cs 0 with
      | [], _ => none
      | _, none => none
      | _, some n => if n ≤ 2 ^ 63 then some (-(n : Int)) else none
    else if c = '+' then
      match cs, readDigits cs 0 with
      | [], _ => none
      | _, none => none
      | _, some n => if n < 2 ^ 63 then some (n : Int) else none
    else
      match readDigits (c :: cs) 0 with
      | none => none
      | some n => if n < 2 ^ 63 then some (n : Int) else none

/-- The standard library, its CSV reader on plain text. -/
def plainStd : Std :=
  ⟨plainCsvRead, plainCsvWrite, plainAtoi⟩

/-! ## The directories of `csvdb_test.go` -/

/-- The directory of `TestCreateTable` when `CreateTable` is called: the
directories made by the test and an empty `metadata.csv`. -/
def createTableFS : FS :=
  ⟨[["/tmp/csvdb_test"], ["/tmp/csvdb_test", ".csvdb"],
    ["/tmp/csvdb_test", ".csvdb", "test_table"],
    ["/tmp/csvdb_test", ".csvdb", "test_table", ".csvdb"],
    ["/tmp/csvdb_test", ".csvdb", "test_table", ".csvdb", "data"]],
   [(["/tmp/csvdb_test", "metadata.csv"], "")]⟩

/-- The database of `TestCreateTable`. -/
def createTableDb : Database :=
  ⟨"/tmp/csvdb_test", 1, []⟩

/-- The directory of `TestDatabaseOpen`. -/
def openFS : FS :=
  ⟨[["/tmp/test_db"], ["/tmp/test_db", ".csvdb"], ["/tmp/test_db", ".csvdb", "table1"],
    ["/tmp/test_db", ".csvdb", "table2"]],
   [(["/tmp/test_db", "version.txt"], "1"),
    (["/tmp/test_db", "metadata.csv"],
      "table1,column1,string\ntable1,column2,string\ntable2,column1,string\n"),
    (["/tmp/test_db", ".csvdb", "table1", "data.csv"], "column1,column2\n1,value1\n2,value2\n"),
    (["/tmp/test_db", ".csvdb", "table2", "data.csv"], "column1\nvalue3\nvalue4\n")]⟩

/-- The database of `TestCreateTable` after `CreateTable`. -/
def createTableDbAfter : Database :=
  ⟨"/tmp/csvdb_test", 2,
    [("test_table",
      ⟨"test_table", [⟨"column1", "string"⟩, ⟨"column2", "string"⟩, ⟨"column3", "string"⟩], []⟩)]⟩

/-- The directory of `TestCreateTable` after `CreateTable`. -/
def createTableFSAfter : FS :=
  ⟨createTableFS.dirs,
   [(["/tmp/csvdb_test", "metadata.csv"], "test_table,,\n"),
    (["/tmp/csvdb_test", ".csvdb", "test_table", ".csvdb", "data", "data.csv"],
      "column1,column2,column3\n")]⟩

/-- The directory of `TestCreateTable` with a `version.txt`, so that it can be
opened. -/
def roundTripFS : FS :=
  ⟨createTableFS.dirs,
   [(["/tmp/csvdb_test", "version.txt"], "1"), (["/tmp/csvdb_test", "metadata.csv"], "")]⟩

/-- A database directory with one table whose `data.csv` is empty. -/
def emptyDataFS : FS :=
  ⟨[["/tmp/test_db"], ["/tmp/test_db", ".csvdb"], ["/tmp/test_db", ".csvdb", "table1"]],
   [(["/tmp/test_db", "version.txt"], "1"), (["/tmp/test_db", "metadata.csv"], ""),
    (["/tmp/test_db", ".csvdb", "table1", "data.csv"], "")]⟩

/-- A database directory with one table whose header names the column `a` twice,
and a metadata row that types the column `a`. -/
def repeatedHeaderFS : FS :=
  ⟨[["/tmp/test_db"], ["/tmp/test_db", ".csvdb"], ["/tmp/test_db", ".csvdb", "table1"]],
   [(["/tmp/test_db", "version.txt"], "1"), (["/tmp/test_db", "metadata.csv"], "table1,a,int\n"),
    (["/tmp/test_db", ".csvdb", "table1", "data.csv"], "a,a\n1,2\n")]⟩

/-- The metadata after `CreateTable`, in the words of the specification: the
column and type fields of the first row whose first field is `name` are set to
empty strings, or the row `(name, "", "")` is appended when there is no such row. -/
def updatedMetadata (name : String) : List (List String) → List (List String)
  | [] => [[name, "", ""]]
  | row :: rest =>
    if row.head? = some name then ((row.set 1 "").set 2 "") :: rest
    else row :: updatedMetadata name rest

/-- The directory `roundTripFS` after `CreateTable("test_table", ...)`. -/
def roundTripFSAfter : FS :=
  ⟨createTableFS.dirs,
   [(["/tmp/csvdb_test", "metadata.csv"], "test_table,,\n"),
    (["/tmp/csvdb_test", ".csvdb", "test_table", ".csvdb", "data", "data.csv"],
      "column1,column2,column3\n"),
    (["/tmp/csvdb_test", "version.txt"], "1")]⟩

/-- The value `&Database{}` on which the tests call `Open`. -/
def zeroDb : Database :=
  ⟨"", 0, []⟩

/-- The metadata row types the column `columnName` of the table `tableName`: it
is a row `(tableName, columnName, ...)` and the column name is not empty. -/
def typesColumn (tableName columnName : String) (row : List String) : Bool :=
  decide (row[0]? = some tableName ∧ row[1]? = some columnName ∧ columnName ≠ "")

/-- The type of a column whose type is `current` after the metadata rows: the
type field of the last row that types the column, `current` when there is none. -/
def typeAfter (tableName columnName current : String) (rows : List (List String)) : String :=
  match (rows.filter (typesColumn tableName columnName)).getLast? with
  | some row => row.getD 2 current
  | none => current

/-- The type that the metadata gives to a column, in the words of the
specification: `"string"` unless a metadata row with that table name and that
non-empty column name exists, in which case it is the type of the last such row. -/
def overlayType (metadataRows : List (List String)) (tableName columnName : String) : String :=
  typeAfter tableName columnName "string" metadataRows

/-- The table that `Open` builds for the directory `name` whose data file holds
the header `header` and the data rows `dataRows`: it bears the name of the
directory, its column names are the header fields in order, the first column of
each name has the type the metadata gives (`"string"` by default) and a column
that repeats an earlier name has the type `"string"`, and its rows are the data
rows in file order. -/
def TableBuilt (metadataRows : List (List String)) (name : String) (header : List String)
    (dataRows : List (List String)) (t : Table) (h : Heap) : Prop :=
  t.Name = name ∧
  t.Columns.map Column.Name = header ∧
  (∀ i, (t.Columns[i]?).map Column.Type_ =
    (header[i]?).map (fun columnName =>
      if header.indexOf columnName = i then overlayType metadataRows name columnName
      else "string")) ∧
  t.HoldsRows h (dataRows.map Row.mk)

/-- The conditions `id = 1` and `age = 7` on the table of `TestExecute`, which
has no column `age`, visited in this order. -/
def unknownConditions : StrMap :=
  StrMap.ofList [("id", "1"), ("age", "7")]

/-- The table that `Open` builds from `repeatedHeaderFS`: two columns named `a`,
one row at the address 0. -/
def repeatedNameTable : Table :=
  ⟨"table1", [⟨"a", "int"⟩, ⟨"a", "string"⟩], [0]⟩

/-- The row of `repeatedNameTable`. -/
def repeatedNameRows : List Row :=
  [⟨["1", "2"]⟩]

/-- The rows of `TestExecute` with a third row of one value, as `Upsert` with
one value leaves it. -/
def shortRows : List Row :=
  [⟨["1", "Alice"]⟩, ⟨["2", "Bob"]⟩, ⟨["3"]⟩]

/-! ## Column resolution and filtering: lemmas -/

theorem findColumnFrom_eq (name : String) (cols : List Column) (i : Nat) :
    findColumnFrom name i cols =
      if name ∈ cols.map Column.Name then some (i + (cols.map Column.Name).indexOf name)
      else none := by
  induction cols generalizing i with
  | nil => simp [findColumnFrom]
  | cons c cs ih =>
    by_cases hc : c.Name = name
    · simp [findColumnFrom, hc]
    · have hne : c.Name ≠ name := hc
      have hne2 : ¬ name = c.Name := fun e => hc e.symm
      simp only [findColumnFrom, hc, if_false, ih, List.map_cons, List.mem_cons, hne2, false_or,
        List.indexOf_cons_ne _ hne]
      split <;> simp; omega

theorem findColumn_eq (cols : List Column) (name : String) :
    findColumn cols name =
      if name ∈ cols.map Column.Name then some ((cols.map Column.Name).indexOf name)
      else none := by
  simp [findColumn, findColumnFrom_eq]

theorem findColumn_of_mem {cols : List Column} {name : String}
    (hmem : name ∈ cols.map Column.Name) :
    findColumn cols name = some ((cols.map Column.Name).indexOf name) := by
  rw [findColumn_eq, if_pos hmem]

theorem resolveColumns_of_mem (cols : List Column) (columns : List String)
    (hcols : ∀ c ∈ columns, c ∈ cols.map Column.Name) :
    resolveColumns cols columns = .ok (columns.map (fun c => (cols.map Column.Name).indexOf c)) := by
  induction columns with
  | nil => rfl
  | cons c rest ih =>
    have h1 := findColumn_of_mem (hcols c (List.mem_cons_self _ _))
    have h2 := ih (fun d hd => hcols d (List.mem_cons_of_mem _ hd))
    simp [resolveColumns, h1, h2]

theorem checkRow_eq (cols : List Column) (h : Heap) (p : RowPtr) (r : Row)
    (hp : h[p]? = some r) (hw : r.Values.length = cols.length)
    (l : List (String × String)) (hkeys : ∀ kv ∈ l, kv.1 ∈ cols.map Column.Name) :
    checkRow cols h p l = .matched (decide (Satisfies (cols.map Column.Name) l r)) := by
  induction l with
  | nil => simp [checkRow, Satisfies]
  | cons kv rest ih =>
    obtain ⟨k, v⟩ := kv
    have hk : k ∈ cols.map Column.Name := hkeys (k, v) (List.mem_cons_self _ _)
    have hlt : (cols.map Column.Name).indexOf k < r.Values.length := by
      rw [hw, ← List.length_map cols Column.Name]; exact List.indexOf_lt_length.mpr hk
    have hget : r.Values[(cols.map Column.Name).indexOf k]? =
        some (r.Values[(cols.map Column.Name).indexOf k]) := List.getElem?_eq_getElem hlt
    have ih1 := ih (fun kv hkv => hkeys kv (List.mem_cons_of_mem _ hkv))
    simp only [checkRow, findColumn_of_mem hk, hp, hget]
    by_cases hv : r.Values[(cols.map Column.Name).indexOf k] = v
    · simp [hv, ih1, Satisfies, hget]
    · simp [hv, Satisfies, hget]

theorem satisfies_perm {names : List String} {l1 l2 : List (String × String)} (hperm : l1.Perm l2)
    (r : Row) : Satisfies names l1 r ↔ Satisfies names l2 r := by
  unfold Satisfies
  constructor
  · intro hs kv hkv; exact hs kv (hperm.mem_iff.mpr hkv)
  · intro hs kv hkv; exact hs kv (hperm.mem_iff.mp hkv)

theorem scanRows_eq (cols : List Column) (h : Heap) (m : StrMap)
    (entries : List (String × String)) (hm : ∀ k, (m.visit k).Perm entries)
    (hkeys : ∀ kv ∈ entries, kv.1 ∈ cols.map Column.Name) :
    ∀ (ps : List RowPtr) (rs : List Row) (k : Nat),
      ps.map (fun p => h[p]?) = rs.map some →
      (∀ r ∈ rs, r.Values.length = cols.length) →
      scanRows cols h m k ps = .rows (ps.filter (rowSatisfies (cols.map Column.Name) entries h)) := by
  intro ps
  induction ps with
  | nil => intro rs k _ _; rfl
  | cons p ps ih =>
    intro rs k hrows hwidth
    cases rs with
    | nil => simp at hrows
    | cons r rs =>
      simp only [List.map_cons, List.cons.injEq] at hrows
      obtain ⟨hp, hrest⟩ := hrows
      have hw : r.Values.length = cols.length := hwidth r (List.mem_cons_self _ _)
      have hk : ∀ kv ∈ m.visit k, kv.1 ∈ cols.map Column.Name :=
        fun kv hkv => hkeys kv ((hm k).mem_iff.mp hkv)
      have hc := checkRow_eq cols h p r hp hw (m.visit k) hk
      have hs : decide (Satisfies (cols.map Column.Name) (m.visit k) r) =
          rowSatisfies (cols.map Column.Name) entries h p := by
        simp only [rowSatisfies, hp]
        exact decide_eq_decide.mpr (satisfies_perm (hm k) r)
      have ih1 := ih rs (k + 1) hrest (fun r hr => hwidth r (List.mem_cons_of_mem _ hr))
      simp only [scanRows, hc, ih1, hs, List.filter_cons]

theorem filter_rowSatisfies_deref (names : List String) (entries : List (String × String))
    (h : Heap) : ∀ (ps : List RowPtr) (rs : List Row),
      ps.map (fun p => h[p]?) = rs.map some →
      (ps.filter (rowSatisfies names entries h)).map (fun p => h[p]?) =
        (rs.filter (fun r => decide (Satisfies names entries r))).map some := by
  intro ps
  induction ps with
  | nil => intro rs hrows; cases rs with
    | nil => rfl
    | cons r rs => simp at hrows
  | cons p ps ih =>
    intro rs hrows
    cases rs with
    | nil => simp at hrows
    | cons r rs =>
      simp only [List.map_cons, List.cons.injEq] at hrows
      obtain ⟨hp, hrest⟩ := hrows
      have ih1 := ih rs hrest
      by_cases hs : Satisfies names entries r
      · simp [List.filter_cons, rowSatisfies, hp, hs, ih1]
      · simp [List.filter_cons, rowSatisfies, hp, hs, ih1]

theorem projectRow_eq (cols : List Column) (h : Heap) (p : RowPtr) (r : Row)
    (hp : h[p]? = some r) (hw : r.Values.length = cols.length) (columns : List String)
    (hcols : ∀ c ∈ columns, c ∈ cols.map Column.Name) :
    ∃ vs, projectRow h p (columns.map (fun c => (cols.map Column.Name).indexOf c)) = some vs ∧
      vs.map some = Projection (cols.map Column.Name) columns r := by
  induction columns with
  | nil => exact ⟨[], rfl, rfl⟩
  | cons c rest ih =>
    obtain ⟨vs, hvs, hproj⟩ := ih (fun d hd => hcols d (List.mem_cons_of_mem _ hd))
    have hc : c ∈ cols.map Column.Name := hcols c (List.mem_cons_self _ _)
    have hlt : (cols.map Column.Name).indexOf c < r.Values.length := by
      rw [hw, ← List.length_map cols Column.Name]; exact List.indexOf_lt_length.mpr hc
    have hget : r.Values[(cols.map Column.Name).indexOf c]? =
        some (r.Values[(cols.map Column.Name).indexOf c]) := List.getElem?_eq_getElem hlt
    refine ⟨r.Values[(cols.map Column.Name).indexOf c] :: vs, ?_, ?_⟩
    · simp only [List.map_cons, projectRow, hp, hget, hvs]
    · simp only [List.map_cons, Projection, hget, List.cons.injEq, true_and]
      exact hproj

theorem projectRows_eq (cols : List Column) (h : Heap) (columns : List String)
    (hcols : ∀ c ∈ columns, c ∈ cols.map Column.Name) :
    ∀ (ps : List RowPtr) (rs : List Row),
      ps.map (fun p => h[p]?) = rs.map some →
      (∀ r ∈ rs, r.Values.length = cols.length) →
      ∃ S, projectRows h (columns.map (fun c => (cols.map Column.Name).indexOf c)) ps = some S ∧
        S.map (fun out => out.Values.map some) =
          rs.map (Projection (cols.map Column.Name) columns) := by
  intro ps
  induction ps with
  | nil => intro rs hrows _; cases rs with
    | nil => exact ⟨[], rfl, rfl⟩
    | cons r rs => simp at hrows
  | cons p ps ih =>
    intro rs hrows hwidth
    cases rs with
    | nil => simp at hrows
    | cons r rs =>
      simp only [List.map_cons, List.cons.injEq] at hrows
      obtain ⟨hp, hrest⟩ := hrows
      obtain ⟨S, hS, hSm⟩ := ih rs hrest (fun r hr => hwidth r (List.mem_cons_of_mem _ hr))
      obtain ⟨vs, hvs, hproj⟩ :=
        projectRow_eq cols h p r hp (hwidth r (List.mem_cons_self _ _)) columns hcols
      refine ⟨⟨vs⟩ :: S, ?_, ?_⟩
      · simp only [projectRows, hvs, hS]
      · simp only [List.map_cons, hproj, hSm]

theorem select_eq (t : Table) (h : Heap) (columns : List String) (m : StrMap)
    (entries : List (String × String)) (rs : List Row)
    (hrows : t.HoldsRows h rs)
    (hwidth : ∀ r ∈ rs, r.Values.length = t.Columns.length)
    (hcols : ∀ c ∈ columns, c ∈ t.names)
    (hkeys : ∀ kv ∈ entries, kv.1 ∈ t.names)
    (hm : ∀ k, (m.visit k).Perm entries) :
    ∃ S, t.Select h columns m = .ok S ∧
      S.map (fun out => out.Values.map some) =
        (rs.filter (fun r => decide (Satisfies t.names entries r))).map (Projection t.names columns) := by
  have hscan := scanRows_eq t.Columns h m entries hm hkeys t.Rows rs 0 hrows hwidth
  have hder := filter_rowSatisfies_deref t.names entries h t.Rows rs hrows
  obtain ⟨S, hS, hSm⟩ := projectRows_eq t.Columns h columns hcols _ _ hder
    (fun r hr => hwidth r (List.mem_of_mem_filter hr))
  refine ⟨S, ?_, hSm⟩
  simp only [Table.Select, resolveColumns_of_mem t.Columns columns hcols, hscan]
  simp only [Table.names] at hS
  simp only [Table.names, hS]

/-! ## Select -/

/-- C1: on a table whose rows all have `len(Columns)` values, with requested
columns and condition keys that all exist, `Select` succeeds, whatever the order
in which the conditions are visited, and returns one row per table row that
satisfies all conditions, in the original order, each the projection of that
row onto the requested columns in the requested order; so every returned row
comes from a satisfying table row and no satisfying row is left out. -/
theorem select_filters_and_projects (t : Table) (h : Heap) (columns : List String)
    (m : StrMap) (entries : List (String × String)) (rs : List Row)
    (hrows : t.HoldsRows h rs)
    (hwidth : ∀ r ∈ rs, r.Values.length = t.Columns.length)
    (hcols : ∀ c ∈ columns, c ∈ t.names)
    (hkeys : ∀ kv ∈ entries, kv.1 ∈ t.names)
    (hm : m.Represents entries) :
    ∃ S, t.Select h columns m = .ok S ∧
      S.map (fun out => out.Values.map some) =
        (rs.filter (fun r => decide (Satisfies t.names entries r))).map
          (Projection t.names columns) ∧
      (∀ out ∈ S, ∃ r ∈ rs, Satisfies t.names entries r ∧
        out.Values.map some = Projection t.names columns r) ∧
      (∀ r ∈ rs, Satisfies t.names entries r →
        ∃ out ∈ S, out.Values.map some = Projection t.names columns r) := by
  obtain ⟨S, hS, hSm⟩ := select_eq t h columns m entries rs hrows hwidth hcols hkeys hm.2
  refine ⟨S, hS, hSm, ?_, ?_⟩
  · intro out hout
    have hmem : out.Values.map some ∈ S.map (fun out => out.Values.map some) :=
      List.mem_map_of_mem _ hout
    rw [hSm] at hmem
    obtain ⟨r, hr, hproj⟩ := List.mem_map.mp hmem
    obtain ⟨hr1, hr2⟩ := List.mem_filter.mp hr
    exact ⟨r, hr1, of_decide_eq_true hr2, hproj.symm⟩
  · intro r hr hsat
    have hmem : Projection t.names columns r ∈ S.map (fun out => out.Values.map some) := by
      rw [hSm]
      exact List.mem_map_of_mem _ (List.mem_filter.mpr ⟨hr, decide_eq_true hsat⟩)
    obtain ⟨out, hout, hproj⟩ := List.mem_map.mp hmem
    exact ⟨out, hout, hproj⟩

/-- C1 at the query `name = "Bob"` of `TestExecute`. -/
theorem select_filters_and_projects_witness :
    ∃ S, executeTable.Select executeRows ["id", "name"] (StrMap.ofList [("name", "Bob")]) = .ok S ∧
      S.map (fun out => out.Values.map some) =
        (executeRows.filter
          (fun r => decide (Satisfies executeTable.names [("name", "Bob")] r))).map
          (Projection executeTable.names ["id", "name"]) ∧
      (∀ out ∈ S, ∃ r ∈ executeRows, Satisfies executeTable.names [("name", "Bob")] r ∧
        out.Values.map some = Projection executeTable.names ["id", "name"] r) ∧
      (∀ r ∈ executeRows, Satisfies executeTable.names [("name", "Bob")] r →
        ∃ out ∈ S, out.Values.map some = Projection executeTable.names ["id", "name"] r) :=
  select_filters_and_projects executeTable executeRows ["id", "name"]
    (StrMap.ofList [("name", "Bob")]) [("name", "Bob")] executeRows
    (by decide) (by decide) (by decide) (by decide)
    ⟨by decide, fun _ => List.Perm.refl _⟩

/-! ## Insert -/

/-- C2: with `len(values) != len(Columns)`, `Insert` returns an error and leaves
the table, its `Rows` (hence `len(Rows)`) and the rows themselves as they were. -/
theorem insert_wrong_arity_fails (t : Table) (h : Heap) (values : List String)
    (hlen : values.length ≠ t.Columns.length) :
    t.Insert h values = .error (insertError t.Columns.length values.length) t h := by
  simp [Table.Insert, hlen]

/-- C2 at the second call of `TestInsert`: a row of one value for two columns. -/
theorem insert_wrong_arity_fails_witness :
    insertTable.Insert insertRows ["4"] =
      .error (insertError insertTable.Columns.length ["4"].length) insertTable insertRows :=
  insert_wrong_arity_fails insertTable insertRows ["4"] (by decide)

theorem scanRows_no_conditions (cols : List Column) (h : Heap) (m : StrMap)
    (hm : ∀ k, m.visit k = []) :
    ∀ (ps : List RowPtr) (k : Nat), scanRows cols h m k ps = .rows ps := by
  intro ps
  induction ps with
  | nil => intro k; rfl
  | cons p ps ih => intro k; simp [scanRows, hm k, checkRow, ih (k + 1)]

theorem projectRow_congr (h h1 : Heap) (p : RowPtr) (hp : h1[p]? = h[p]?) :
    ∀ idxs : List Nat, projectRow h1 p idxs = projectRow h p idxs := by
  intro idxs
  induction idxs with
  | nil => rfl
  | cons i rest ih => simp only [projectRow, hp, ih]

theorem projectRows_congr (h h1 : Heap) (idxs : List Nat) :
    ∀ ps : List RowPtr, (∀ p ∈ ps, h1[p]? = h[p]?) →
      projectRows h1 idxs ps = projectRows h idxs ps := by
  intro ps
  induction ps with
  | nil => intro _; rfl
  | cons p ps ih =>
    intro hps
    simp only [projectRows, projectRow_congr h h1 p (hps p (List.mem_cons_self _ _)),
      ih (fun q hq => hps q (List.mem_cons_of_mem _ hq))]

theorem projectRows_concat (h : Heap) (idxs : List Nat) (p : RowPtr) (vs : List String)
    (hp : projectRow h p idxs = some vs) :
    ∀ (ps : List RowPtr) (S : List Row), projectRows h idxs ps = some S →
      projectRows h idxs (ps ++ [p]) = some (S ++ [⟨vs⟩]) := by
  intro ps
  induction ps with
  | nil =>
    intro S hS
    simp only [projectRows, Option.some.injEq] at hS
    subst hS
    simp [projectRows, hp]
  | cons q ps ih =>
    intro S hS
    simp only [projectRows] at hS
    cases hq : projectRow h q idxs with
    | none => simp [hq] at hS
    | some ws =>
      cases hrest : projectRows h idxs ps with
      | none => simp [hq, hrest] at hS
      | some S1 =>
        simp only [hq, hrest, Option.some.injEq] at hS
        subst hS
        simp [projectRows, hq, ih S1 hrest]

theorem lt_length_of_deref {h : Heap} {ps : List RowPtr} {rs : List Row}
    (hrows : ps.map (fun p => h[p]?) = rs.map some) : ∀ q ∈ ps, q < h.length := by
  intro q hq
  have hmem : h[q]? ∈ rs.map some := by
    rw [← hrows]; exact List.mem_map_of_mem (fun p => h[p]?) hq
  obtain ⟨r, _, hr⟩ := List.mem_map.mp hmem
  by_contra hge
  rw [List.getElem?_eq_none (Nat.le_of_not_lt hge)] at hr
  cases hr

theorem holdsRows_concat (t : Table) (h : Heap) (rs : List Row) (r : Row)
    (hrows : t.HoldsRows h rs) :
    Table.HoldsRows { t with Rows := t.Rows ++ [h.length] } (h ++ [r]) (rs ++ [r]) := by
  unfold Table.HoldsRows at hrows ⊢
  have hlt := lt_length_of_deref hrows
  simp only [List.map_append, List.map_cons, List.map_nil, List.getElem?_concat_length]
  congr 1
  rw [← hrows]
  apply List.map_congr_left
  intro q hq
  exact List.getElem?_append_left (hlt q hq)

theorem projection_all_columns (names : List String) (values : List String)
    (hlen : values.length = names.length) (hnodup : names.Nodup) :
    Projection names names ⟨values⟩ = values.map some := by
  apply List.ext_getElem?
  intro i
  unfold Projection
  rw [List.getElem?_map, List.getElem?_map]
  by_cases hi : i < names.length
  · rw [List.getElem?_eq_getElem hi, List.getElem?_eq_getElem (hlen ▸ hi)]
    simp only [Option.map_some']
    rw [List.indexOf_getElem hnodup i hi, List.getElem?_eq_getElem (hlen ▸ hi)]
  · rw [List.getElem?_eq_none (Nat.le_of_not_lt hi),
      List.getElem?_eq_none (hlen ▸ Nat.le_of_not_lt hi)]
    rfl

/-- C3, amended: with `len(values) == len(Columns)`, `Insert` succeeds and the rows
of the table are the old rows, unchanged and in the same order, followed by one
row holding `values`; so when a `Select` of all columns with no conditions
returned `S` before, it returns `S` followed by one more row after: the new row
itself when the column names of the table are distinct, and in every case the
new row read through the first column of each name. -/
theorem insert_appends_row (t : Table) (h : Heap) (values : List String) (rs : List Row)
    (hlen : values.length = t.Columns.length)
    (hrows : t.HoldsRows h rs) :
    ∃ t1 h1, t.Insert h values = .nil t1 h1 ∧
      t1.Name = t.Name ∧ t1.Columns = t.Columns ∧
      (∃ p, t1.Rows = t.Rows ++ [p] ∧ h1[p]? = some ⟨values⟩) ∧
      (∀ q ∈ t.Rows, h1[q]? = h[q]?) ∧
      t1.HoldsRows h1 (rs ++ [⟨values⟩]) ∧
      ∀ (m m1 : StrMap) (S : List Row), m.Represents [] → m1.Represents [] →
        t.Select h t.names m = .ok S →
        ∃ last, t1.Select h1 t1.names m1 = .ok (S ++ [last]) ∧
          last.Values.map some = Projection t.names t.names ⟨values⟩ ∧
          (t.names.Nodup → last = ⟨values⟩) := by
  have hlt := lt_length_of_deref hrows
  have hold : ∀ q ∈ t.Rows, (h ++ [(⟨values⟩ : Row)])[q]? = h[q]? :=
    fun q hq => List.getElem?_append_left (hlt q hq)
  refine ⟨{ t with Rows := t.Rows ++ [h.length] }, h ++ [⟨values⟩], ?_, rfl, rfl,
    ⟨h.length, rfl, List.getElem?_concat_length h _⟩, hold,
    holdsRows_concat t h rs ⟨values⟩ hrows, ?_⟩
  · simp [Table.Insert, hlen]
  · intro m m1 S hm hm1 hS
    have hv : ∀ k, m.visit k = [] := fun k => (hm.2 k).eq_nil
    have hv1 : ∀ k, m1.visit k = [] := fun k => (hm1.2 k).eq_nil
    have hres := resolveColumns_of_mem t.Columns t.names (fun c hc => hc)
    simp only [Table.Select, hres, scanRows_no_conditions t.Columns h m hv] at hS
    cases hproj : projectRows h (t.names.map (fun c => (t.Columns.map Column.Name).indexOf c))
        t.Rows with
    | none => simp [hproj] at hS
    | some S1 =>
      simp only [hproj, Res.ok.injEq] at hS
      subst hS
      obtain ⟨vs, hvs, hvp⟩ := projectRow_eq t.Columns (h ++ [(⟨values⟩ : Row)]) h.length
        ⟨values⟩ (List.getElem?_concat_length h _) hlen t.names (fun c hc => hc)
      have hproj1 := projectRows_congr h (h ++ [(⟨values⟩ : Row)])
        (t.names.map (fun c => (t.Columns.map Column.Name).indexOf c)) t.Rows hold
      rw [hproj] at hproj1
      have hcat := projectRows_concat _ _ h.length vs hvs t.Rows S1 hproj1
      refine ⟨⟨vs⟩, ?_, hvp, ?_⟩
      · simp only [Table.names] at hres hcat
        simp only [Table.Select, Table.names, hres,
          scanRows_no_conditions t.Columns _ m1 hv1, hcat]
      · intro hnodup
        have hall := projection_all_columns t.names values
          (by simpa [Table.names] using hlen) hnodup
        have : vs.map some = values.map some := by
          rw [hvp]; exact hall
        have hinj := (List.map_injective_iff.mpr (Option.some_injective String)) this
        rw [hinj]

/-- C3, amended, at the first call of `TestInsert`, whose column names are distinct. -/
theorem insert_appends_row_witness :
    ∃ t1 h1, insertTable.Insert insertRows ["3", "row3"] = .nil t1 h1 ∧
      t1.Name = insertTable.Name ∧ t1.Columns = insertTable.Columns ∧
      (∃ p, t1.Rows = insertTable.Rows ++ [p] ∧ h1[p]? = some ⟨["3", "row3"]⟩) ∧
      (∀ q ∈ insertTable.Rows, h1[q]? = insertRows[q]?) ∧
      t1.HoldsRows h1 (insertRows ++ [⟨["3", "row3"]⟩]) ∧
      ∀ (m m1 : StrMap) (S : List Row), m.Represents [] → m1.Represents [] →
        insertTable.Select insertRows insertTable.names m = .ok S →
        ∃ last, t1.Select h1 t1.names m1 = .ok (S ++ [last]) ∧
          last.Values.map some =
            Projection insertTable.names insertTable.names ⟨["3", "row3"]⟩ ∧
          (insertTable.names.Nodup → last = ⟨["3", "row3"]⟩) :=
  insert_appends_row insertTable insertRows ["3", "row3"] insertRows (by decide) (by decide)

/-! ## Upsert -/

theorem rowMatchesFrom_eq (values2 : List String) :
    ∀ (l : List String) (i : Nat), (values2.drop i).length = l.length →
      rowMatchesFrom values2 i l = some (decide (values2.drop i = l)) := by
  intro l
  induction l with
  | nil =>
    intro i hlen
    have : values2.drop i = [] := List.length_eq_zero.mp hlen
    simp [rowMatchesFrom, this]
  | cons v rest ih =>
    intro i hlen
    have hi : i < values2.length := by
      simp only [List.length_drop, List.length_cons] at hlen; omega
    have hdrop : values2.drop i = values2[i] :: values2.drop (i + 1) := List.drop_eq_getElem_cons hi
    have hlen1 : (values2.drop (i + 1)).length = rest.length := by
      simp only [List.length_drop, List.length_cons] at hlen ⊢; omega
    simp only [rowMatchesFrom, List.getElem?_eq_getElem hi, hdrop, ih (i + 1) hlen1, List.cons.injEq]
    by_cases hv : v = values2[i]
    · subst hv; simp
    · have hv1 : ¬ values2[i] = v := fun e => hv e.symm
      simp [hv, hv1]

theorem rowMatches_eq (row1 row2 : Row) :
    rowMatches row1 row2 = some (decide (row1 = row2)) := by
  unfold rowMatches
  by_cases hlen : row1.Values.length = row2.Values.length
  · have h0 := rowMatchesFrom_eq row2.Values row1.Values 0 (by simpa using hlen.symm)
    simp only [hlen, ne_eq, not_true_eq_false, if_false, h0, List.drop_zero, Option.some.injEq]
    cases row1; cases row2
    simp only [Row.mk.injEq]
    exact decide_eq_decide.mpr eq_comm
  · have hne : row1 ≠ row2 := fun e => hlen (by rw [e])
    simp [hlen, hne]

theorem getMatchingRowIn_found (h : Heap) (row : Row) :
    ∀ (ps : List RowPtr) (rs : List Row), ps.map (fun p => h[p]?) = rs.map some → row ∈ rs →
      ∃ p, getMatchingRowIn h row ps = .ok (some p) ∧ h[p]? = some row := by
  intro ps
  induction ps with
  | nil => intro rs hrows hmem; cases rs with
    | nil => cases hmem
    | cons r rs => simp at hrows
  | cons q ps ih =>
    intro rs hrows hmem
    cases rs with
    | nil => simp at hrows
    | cons r rs =>
      simp only [List.map_cons, List.cons.injEq] at hrows
      obtain ⟨hq, hrest⟩ := hrows
      by_cases hr : r = row
      · exact ⟨q, by simp [getMatchingRowIn, hq, rowMatches_eq, hr], by rw [hq, hr]⟩
      · have hmem1 : row ∈ rs := by
          rcases List.mem_cons.mp hmem with e | e
          · exact absurd e.symm hr
          · exact e
        obtain ⟨p, hp, hderef⟩ := ih rs hrest hmem1
        exact ⟨p, by simp [getMatchingRowIn, hq, rowMatches_eq, hr, hp], hderef⟩

theorem getMatchingRowIn_none (h : Heap) (row : Row) :
    ∀ (ps : List RowPtr) (rs : List Row), ps.map (fun p => h[p]?) = rs.map some → row ∉ rs →
      getMatchingRowIn h row ps = .ok none := by
  intro ps
  induction ps with
  | nil => intro rs _ _; rfl
  | cons q ps ih =>
    intro rs hrows hmem
    cases rs with
    | nil => simp at hrows
    | cons r rs =>
      simp only [List.map_cons, List.cons.injEq] at hrows
      obtain ⟨hq, hrest⟩ := hrows
      have hr : r ≠ row := fun e => hmem (e ▸ List.mem_cons_self _ _)
      have hmem1 : row ∉ rs := fun e => hmem (List.mem_cons_of_mem _ e)
      simp [getMatchingRowIn, hq, rowMatches_eq, hr, ih rs hrest hmem1]

theorem copy_self (values : List String) : copy values values = values := by
  simp [copy]

theorem set_deref_self (h : Heap) (p : RowPtr) (r : Row) (hp : h[p]? = some r) :
    h.set p r = h := by
  apply List.ext_getElem?
  intro n
  by_cases hn : p = n
  · subst hn
    have hlt : p < h.length := by
      by_contra hge
      rw [List.getElem?_eq_none (Nat.le_of_not_lt hge)] at hp
      cases hp
    rw [List.getElem?_set_self hlt, hp]
  · rw [List.getElem?_set_ne hn]

/-- C4: `Upsert` succeeds on every table; when some existing row is
value-identical to `values` it leaves the rows as they are (row count changed by
0), and otherwise it appends one row holding `values` after the old rows (row
count changed by exactly +1). -/
theorem upsert_identical_or_novel (t : Table) (h : Heap) (values : List String)
    (rs : List Row) (hrows : t.HoldsRows h rs) :
    ((∃ r ∈ rs, r.Values = values) → t.Upsert h values = .nil t h) ∧
    ((¬ ∃ r ∈ rs, r.Values = values) →
      ∃ t1 h1, t.Upsert h values = .nil t1 h1 ∧
        t1.Rows.length = t.Rows.length + 1 ∧
        t1.Name = t.Name ∧ t1.Columns = t.Columns ∧
        (∃ p, t1.Rows = t.Rows ++ [p] ∧ h1[p]? = some ⟨values⟩) ∧
        (∀ q ∈ t.Rows, h1[q]? = h[q]?) ∧
        t1.HoldsRows h1 (rs ++ [⟨values⟩])) := by
  constructor
  · rintro ⟨r, hr, hv⟩
    have hmem : (⟨values⟩ : Row) ∈ rs := by
      cases r; simp only at hv; subst hv; exact hr
    obtain ⟨p, hp, hderef⟩ := getMatchingRowIn_found h ⟨values⟩ t.Rows rs hrows hmem
    simp [Table.Upsert, Table.getMatchingRow, hp, Table.updateRow, hderef, copy_self,
      set_deref_self h p ⟨values⟩ hderef]
  · intro hno
    have hmem : (⟨values⟩ : Row) ∉ rs := fun e => hno ⟨⟨values⟩, e, rfl⟩
    have hnone := getMatchingRowIn_none h ⟨values⟩ t.Rows rs hrows hmem
    have hlt := lt_length_of_deref hrows
    refine ⟨{ t with Rows := t.Rows ++ [h.length] }, h ++ [⟨values⟩], ?_, ?_, rfl, rfl,
      ⟨h.length, rfl, List.getElem?_concat_length h _⟩,
      fun q hq => List.getElem?_append_left (hlt q hq),
      holdsRows_concat t h rs ⟨values⟩ hrows⟩
    · simp [Table.Upsert, Table.getMatchingRow, hnone]
    · simp

/-- C4 on the table of `TestInsert`: an identical row, then a novel row. -/
theorem upsert_identical_or_novel_witness :
    insertTable.Upsert insertRows ["2", "row2"] = .nil insertTable insertRows ∧
    ∃ t1 h1, insertTable.Upsert insertRows ["3", "row3"] = .nil t1 h1 ∧
      t1.Rows.length = insertTable.Rows.length + 1 ∧
      t1.Name = insertTable.Name ∧ t1.Columns = insertTable.Columns ∧
      (∃ p, t1.Rows = insertTable.Rows ++ [p] ∧ h1[p]? = some ⟨["3", "row3"]⟩) ∧
      (∀ q ∈ insertTable.Rows, h1[q]? = insertRows[q]?) ∧
      t1.HoldsRows h1 (insertRows ++ [⟨["3", "row3"]⟩]) :=
  ⟨(upsert_identical_or_novel insertTable insertRows ["2", "row2"] insertRows (by decide)).1
      (by decide),
    (upsert_identical_or_novel insertTable insertRows ["3", "row3"] insertRows (by decide)).2
      (by decide)⟩

/-- C5 (the code at the input of `TestUpsert/Update existing row`): upserting
`["2", "Updated Bob"]` into the rows `[1, Alice], [2, Bob], [3, Charlie]` appends
a fourth row and leaves the second row `["2", "Bob"]`. -/
theorem upsert_same_id_appends :
    upsertTable.Upsert upsertRows ["2", "Updated Bob"] =
      .nil { upsertTable with Rows := [0, 1, 2, 3] }
        [⟨["1", "Alice"]⟩, ⟨["2", "Bob"]⟩, ⟨["3", "Charlie"]⟩, ⟨["2", "Updated Bob"]⟩] := by
  decide

/-! ## Execute -/

theorem hasColumn_eq (column : String) (cols : List Column) :
    hasColumn column cols = decide (column ∈ cols.map Column.Name) := by
  induction cols with
  | nil => simp [hasColumn]
  | cons c cs ih =>
    by_cases hc : c.Name = column
    · simp [hasColumn, hc]
    · have hc1 : ¬ column = c.Name := fun e => hc e.symm
      simp [hasColumn, hc, hc1, ih]

theorem invalidCondition_none (cols : List Column) (l : List (String × String))
    (hkeys : ∀ kv ∈ l, kv.1 ∈ cols.map Column.Name) : invalidCondition cols l = none := by
  induction l with
  | nil => rfl
  | cons kv rest ih =>
    obtain ⟨k, v⟩ := kv
    have hk : k ∈ cols.map Column.Name := hkeys (k, v) (List.mem_cons_self _ _)
    simp only [invalidCondition, hasColumn_eq, hk, decide_True, if_true]
    exact ih (fun kv hkv => hkeys kv (List.mem_cons_of_mem _ hkv))

theorem represents_after {m : StrMap} {entries : List (String × String)}
    (hm : m.Represents entries) (n : Nat) : (m.after n).Represents entries :=
  ⟨hm.1, fun k => hm.2 (n + k)⟩

/-- When the condition keys are columns and the call of `Select` made by
`Execute` returns `S`, `Execute` is the pagination of `S`. -/
theorem execute_of_select (db : Database) (h : Heap) (q : Query) (t : Table)
    (entries : List (String × String)) (S : List Row)
    (htable : db.Tables.lookup q.Table = some t)
    (hkeys : ∀ kv ∈ entries, kv.1 ∈ t.names)
    (hm : q.Conditions.Represents entries)
    (hsel : t.Select h q.Columns (q.Conditions.after 1) = .ok S) :
    db.Execute h q =
      match paginate S q.Limit q.Offset with
      | none => .panic
      | some page => .ok page := by
  have hinv : invalidCondition t.Columns (q.Conditions.visit 0) = none :=
    invalidCondition_none t.Columns _ (fun kv hkv => hkeys kv ((hm.2 0).mem_iff.mp hkv))
  simp only [Database.Execute, Database.GetTable, htable, hinv, hsel]

theorem paginate_eq (S : List Row) (L O : Int) :
    0 ≤ effectiveOffset O (effectiveLimit L S.length) ∧
    effectiveOffset O (effectiveLimit L S.length) ≤ effectiveLimit L S.length ∧
    effectiveLimit L S.length ≤ (S.length : Int) ∧
    paginate S L O = some (if L ≤ 0 ∧ O ≤ 0 then S else
      (S.take (effectiveLimit L S.length).toNat).drop
        (effectiveOffset O (effectiveLimit L S.length)).toNat) := by
  have hlim : (if L > 0 ∧ L < (S.length : Int) then L else (S.length : Int)) =
      effectiveLimit L S.length := by
    unfold effectiveLimit
    split <;> split <;> omega
  have h1 : 0 ≤ effectiveOffset O (effectiveLimit L S.length) := by
    unfold effectiveOffset; split <;> omega
  have h2 : effectiveOffset O (effectiveLimit L S.length) ≤ effectiveLimit L S.length := by
    unfold effectiveOffset effectiveLimit; split <;> split <;> omega
  have h3 : effectiveLimit L S.length ≤ (S.length : Int) := by
    unfold effectiveLimit; split <;> omega
  refine ⟨h1, h2, h3, ?_⟩
  unfold paginate
  by_cases hpage : L > 0 ∨ O > 0
  · have hneg : ¬ (L ≤ 0 ∧ O ≤ 0) := by omega
    simp only [hpage, if_true, hlim, hneg, if_false, sliceRows]
    rw [if_pos ⟨h1, h2, h3⟩]
    rfl
  · have hpos : L ≤ 0 ∧ O ≤ 0 := by omega
    simp only [hpage, if_false, hpos, and_self, if_true]
/-- C6: on an existing table with valid conditions, with `S` the result of the
`Select` that `Execute` calls and `n = len(S)`: `Execute` with `Limit = L > 0` and
`Offset = 0` returns the first `min(L, n)` rows of `S`, and `Execute` with
`Limit = 0` and `Offset = k`, `0 < k < n`, returns `S` without its first `k` rows. -/
theorem execute_limit_or_offset (db : Database) (h : Heap) (q : Query) (t : Table)
    (entries : List (String × String)) (S : List Row)
    (htable : db.Tables.lookup q.Table = some t)
    (hkeys : ∀ kv ∈ entries, kv.1 ∈ t.names)
    (hm : q.Conditions.Represents entries)
    (hsel : t.Select h q.Columns (q.Conditions.after 1) = .ok S) :
    (0 < q.Limit → q.Offset = 0 →
      db.Execute h q = .ok (S.take (min q.Limit.toNat S.length))) ∧
    (q.Limit = 0 → 0 < q.Offset → q.Offset < (S.length : Int) →
      db.Execute h q = .ok (S.drop q.Offset.toNat)) := by
  have hexec := execute_of_select db h q t entries S htable hkeys hm hsel
  obtain ⟨_, _, _, hpag⟩ := paginate_eq S q.Limit q.Offset
  constructor
  · intro hL hO
    have hneg : ¬ (q.Limit ≤ 0 ∧ q.Offset ≤ 0) := by omega
    have hoff : effectiveOffset q.Offset (effectiveLimit q.Limit S.length) = 0 := by
      unfold effectiveOffset; split <;> omega
    have hlim : (effectiveLimit q.Limit S.length).toNat = min q.Limit.toNat S.length := by
      unfold effectiveLimit; split <;> omega
    rw [hexec, hpag]
    simp only [hneg, if_false, hoff, hlim, Int.toNat_zero, List.drop_zero]
  · intro hL hO hlt
    have hneg : ¬ (q.Limit ≤ 0 ∧ q.Offset ≤ 0) := by omega
    have hlim : effectiveLimit q.Limit S.length = (S.length : Int) := by
      unfold effectiveLimit; split <;> omega
    have hoff : effectiveOffset q.Offset (S.length : Int) = q.Offset := by
      unfold effectiveOffset; split <;> omega
    rw [hexec, hpag]
    simp only [hneg, if_false, hlim, hoff, Int.toNat_ofNat, List.take_length]

/-- C6 at the queries of `TestExecute`: `Limit: 1` gives the first of the three
rows, `Offset: 1` gives the second and the third. -/
theorem execute_limit_or_offset_witness :
    executeDb.Execute executeRows limitQuery = .ok [⟨["1", "Alice"]⟩] ∧
    executeDb.Execute executeRows offsetQuery = .ok [⟨["2", "Bob"]⟩, ⟨["3", "Chuck"]⟩] :=
  ⟨(execute_limit_or_offset executeDb executeRows limitQuery executeTable [] executeRows
      (by decide) (by decide) ⟨by decide, fun _ => List.Perm.refl _⟩ (by decide)).1
      (by decide) rfl,
    (execute_limit_or_offset executeDb executeRows offsetQuery executeTable [] executeRows
      (by decide) (by decide) ⟨by decide, fun _ => List.Perm.refl _⟩ (by decide)).2
      rfl (by decide) (by decide)⟩

/-- C7: on an existing table with valid conditions, for all integers `Limit` and
`Offset`, with `S` the result of the `Select` that `Execute` calls: `Execute`
returns `S` itself when `Limit <= 0` and `Offset <= 0`, and otherwise
`S[offset:limit]` with `limit = min(Limit, len(S))` if `Limit > 0` else `len(S)`,
and `offset = Offset` if `0 < Offset < limit` else `0`; always
`0 <= offset <= limit <= len(S)`, so the slice is in range and the pagination
does not fail. -/
theorem execute_paginates (db : Database) (h : Heap) (q : Query) (t : Table)
    (entries : List (String × String)) (S : List Row)
    (htable : db.Tables.lookup q.Table = some t)
    (hkeys : ∀ kv ∈ entries, kv.1 ∈ t.names)
    (hm : q.Conditions.Represents entries)
    (hsel : t.Select h q.Columns (q.Conditions.after 1) = .ok S) :
    0 ≤ effectiveOffset q.Offset (effectiveLimit q.Limit S.length) ∧
    effectiveOffset q.Offset (effectiveLimit q.Limit S.length) ≤
      effectiveLimit q.Limit S.length ∧
    effectiveLimit q.Limit S.length ≤ (S.length : Int) ∧
    (q.Limit ≤ 0 ∧ q.Offset ≤ 0 → db.Execute h q = .ok S) ∧
    (¬ (q.Limit ≤ 0 ∧ q.Offset ≤ 0) →
      db.Execute h q = .ok ((S.take (effectiveLimit q.Limit S.length).toNat).drop
        (effectiveOffset q.Offset (effectiveLimit q.Limit S.length)).toNat)) := by
  have hexec := execute_of_select db h q t entries S htable hkeys hm hsel
  obtain ⟨h1, h2, h3, hpag⟩ := paginate_eq S q.Limit q.Offset
  refine ⟨h1, h2, h3, ?_, ?_⟩
  · intro hle
    rw [hexec, hpag]
    simp only [hle, and_self, if_true]
  · intro hnle
    rw [hexec, hpag]
    simp only [hnle, if_false]

/-- C7 at an offset beyond the rows and a negative limit: the offset counts as 0
and all three rows of `TestExecute` are returned. -/
theorem execute_paginates_witness :
    executeDb.Execute executeRows beyondQuery = .ok executeRows :=
  (execute_paginates executeDb executeRows beyondQuery executeTable [] executeRows
    (by decide) (by decide) ⟨by decide, fun _ => List.Perm.refl _⟩ (by decide)).2.2.2.2
    (by decide)

/-- C8, amended: on an existing table whose rows all have `len(Columns)` values
and whose requested columns and condition keys all exist, when no row satisfies
all conditions `Execute` returns an empty sequence and no error, for every
`Limit` and `Offset`. -/
theorem execute_no_match_empty (db : Database) (h : Heap) (q : Query) (t : Table)
    (entries : List (String × String)) (rs : List Row)
    (htable : db.Tables.lookup q.Table = some t)
    (hrows : t.HoldsRows h rs)
    (hwidth : ∀ r ∈ rs, r.Values.length = t.Columns.length)
    (hcols : ∀ c ∈ q.Columns, c ∈ t.names)
    (hkeys : ∀ kv ∈ entries, kv.1 ∈ t.names)
    (hm : q.Conditions.Represents entries)
    (hnone : ∀ r ∈ rs, ¬ Satisfies t.names entries r) :
    db.Execute h q = .ok [] := by
  obtain ⟨S, hsel, hSm⟩ := select_eq t h q.Columns (q.Conditions.after 1) entries rs hrows
    hwidth hcols hkeys (represents_after hm 1).2
  have hexec := execute_of_select db h q t entries S htable hkeys hm hsel
  have hfilter : rs.filter (fun r => decide (Satisfies t.names entries r)) = [] := by
    apply List.filter_eq_nil_iff.mpr
    intro r hr
    simpa using hnone r hr
  have hS : S = [] := by
    rw [hfilter] at hSm
    exact List.map_eq_nil_iff.mp hSm
  subst hS
  obtain ⟨_, _, _, hpag⟩ := paginate_eq [] q.Limit q.Offset
  rw [hexec, hpag]
  by_cases hc : q.Limit ≤ 0 ∧ q.Offset ≤ 0 <;> simp [hc]

/-- C8, amended, at the query `name = "David"` of `TestExecute`. -/
theorem execute_no_match_empty_witness :
    executeDb.Execute executeRows davidQuery = .ok [] :=
  execute_no_match_empty executeDb executeRows davidQuery executeTable [("name", "David")]
    executeRows (by decide) (by decide) (by decide) (by decide) (by decide)
    ⟨by decide, fun _ => List.Perm.refl _⟩ (by decide)

/-! ## Delete -/

theorem foldl_removeRow_cons (a : RowPtr) :
    ∀ (ds l : List RowPtr), a ∉ ds →
      ds.foldl (fun rows d => removeRow d rows) (a :: l) =
        a :: ds.foldl (fun rows d => removeRow d rows) l := by
  intro ds
  induction ds with
  | nil => intro l _; rfl
  | cons d ds ih =>
    intro l hmem
    have had : a ≠ d := fun e => hmem (e ▸ List.mem_cons_self _ _)
    have hrest : a ∉ ds := fun e => hmem (List.mem_cons_of_mem _ e)
    simp only [List.foldl_cons, removeRow, had, if_false]
    exact ih (removeRow d l) hrest

theorem foldl_removeRow_filter (f : RowPtr → Bool) :
    ∀ l : List RowPtr,
      (l.filter f).foldl (fun rows d => removeRow d rows) l = l.filter (fun p => !f p) := by
  intro l
  induction l with
  | nil => rfl
  | cons a l ih =>
    by_cases hf : f a = true
    · simp only [List.filter_cons, hf, if_true, List.foldl_cons, removeRow, Bool.not_true,
        Bool.false_eq_true, if_false]
      exact ih
    · have hmem : a ∉ l.filter f := fun e => hf (List.mem_filter.mp e).2
      have hf1 : f a = false := by simpa using hf
      simp only [List.filter_cons, hf1, Bool.false_eq_true, if_false, Bool.not_false, if_true]
      rw [foldl_removeRow_cons a _ l hmem, ih]

theorem filter_deref (h : Heap) (f : RowPtr → Bool) (g : Row → Bool)
    (hfg : ∀ p r, h[p]? = some r → f p = g r) :
    ∀ (ps : List RowPtr) (rs : List Row), ps.map (fun p => h[p]?) = rs.map some →
      (ps.filter f).map (fun p => h[p]?) = (rs.filter g).map some := by
  intro ps
  induction ps with
  | nil => intro rs hrows; cases rs with
    | nil => rfl
    | cons r rs => simp at hrows
  | cons p ps ih =>
    intro rs hrows
    cases rs with
    | nil => simp at hrows
    | cons r rs =>
      simp only [List.map_cons, List.cons.injEq] at hrows
      obtain ⟨hp, hrest⟩ := hrows
      have ih1 := ih rs hrest
      have hpr := hfg p r hp
      cases hg : g r
      · simp [List.filter_cons, hpr, hg, ih1]
      · simp [List.filter_cons, hpr, hg, ih1, hp]

/-- C9: on a table whose rows all have `len(Columns)` values, with condition keys
that all exist, `Delete` succeeds, whatever the order in which the conditions are
visited, and the new `Rows` is the old `Rows` without the rows that satisfy all
conditions, the others kept in their order and untouched; with no conditions
every row matches and `Rows` becomes empty. -/
theorem delete_removes_matching (t : Table) (h : Heap) (m : StrMap)
    (entries : List (String × String)) (rs : List Row)
    (hrows : t.HoldsRows h rs)
    (hwidth : ∀ r ∈ rs, r.Values.length = t.Columns.length)
    (hkeys : ∀ kv ∈ entries, kv.1 ∈ t.names)
    (hm : m.Represents entries) :
    ∃ t1, t.Delete h m = .nil t1 h ∧
      t1.Name = t.Name ∧ t1.Columns = t.Columns ∧
      t1.Rows = t.Rows.filter (fun p => !rowSatisfies t.names entries h p) ∧
      t1.HoldsRows h (rs.filter (fun r => !decide (Satisfies t.names entries r))) ∧
      (entries = [] → t1.Rows = []) := by
  have hscan := scanRows_eq t.Columns h m entries hm.2 hkeys t.Rows rs 0 hrows hwidth
  have hfold := foldl_removeRow_filter (rowSatisfies t.names entries h) t.Rows
  refine ⟨{ t with Rows := t.Rows.filter (fun p => !rowSatisfies t.names entries h p) }, ?_,
    rfl, rfl, rfl, ?_, ?_⟩
  · simp only [Table.names] at hfold
    simp only [Table.Delete, hscan, hfold, Table.names]
  · unfold Table.HoldsRows
    apply filter_deref h _ _ _ t.Rows rs hrows
    intro p r hp
    simp only [rowSatisfies, hp]
  · intro hnil
    subst hnil
    apply List.filter_eq_nil_iff.mpr
    intro p hp
    have hlt := lt_length_of_deref hrows p hp
    simp [rowSatisfies, List.getElem?_eq_getElem hlt, Satisfies]

/-- C9 on the table of `TestExecute` with the condition `name = "Bob"`. -/
theorem delete_removes_matching_witness :
    ∃ t1, executeTable.Delete executeRows (StrMap.ofList [("name", "Bob")]) =
        .nil t1 executeRows ∧
      t1.Name = executeTable.Name ∧ t1.Columns = executeTable.Columns ∧
      t1.Rows = executeTable.Rows.filter
        (fun p => !rowSatisfies executeTable.names [("name", "Bob")] executeRows p) ∧
      t1.HoldsRows executeRows
        (executeRows.filter
          (fun r => !decide (Satisfies executeTable.names [("name", "Bob")] r))) ∧
      (([("name", "Bob")] : List (String × String)) = [] → t1.Rows = []) :=
  delete_removes_matching executeTable executeRows (StrMap.ofList [("name", "Bob")])
    [("name", "Bob")] executeRows (by decide) (by decide) (by decide)
    ⟨by decide, fun _ => List.Perm.refl _⟩

/-! ## Update -/

theorem applyWrites_length (ws : List (Nat × String)) :
    ∀ vs : List String, (applyWrites ws vs).length = vs.length := by
  induction ws with
  | nil => intro vs; rfl
  | cons w ws ih =>
    intro vs
    simp only [applyWrites, List.foldl_cons] at ih ⊢
    rw [ih, List.length_set]

theorem applyWrites_getElem? (ws : List (Nat × String)) :
    ∀ (vs : List String) (j : Nat),
      (applyWrites ws vs)[j]? = (vs[j]?).map (fun v => (lastWrite ws j).getD v) := by
  induction ws with
  | nil => intro vs j; simp [applyWrites, lastWrite]
  | cons w ws ih =>
    intro vs j
    have ih1 := ih (vs.set w.1 w.2) j
    simp only [applyWrites, List.foldl_cons] at ih1 ⊢
    rw [ih1]
    cases hl : lastWrite ws j with
    | some v =>
      simp only [lastWrite, hl, Option.getD_some]
      by_cases hj : w.1 = j
      · subst hj
        by_cases hlt : w.1 < vs.length
        · simp [List.getElem?_set_self hlt, List.getElem?_eq_getElem hlt]
        · have hge : vs.length ≤ w.1 := Nat.le_of_not_lt hlt
          rw [List.getElem?_eq_none (show (vs.set w.1 w.2).length ≤ w.1 by simpa using hge),
            List.getElem?_eq_none hge]
      · rw [List.getElem?_set_ne hj]
    | none =>
      simp only [lastWrite, hl, Option.getD_none]
      by_cases hj : w.1 = j
      · subst hj
        by_cases hlt : w.1 < vs.length
        · simp [List.getElem?_set_self hlt, List.getElem?_eq_getElem hlt]
        · have hge : vs.length ≤ w.1 := Nat.le_of_not_lt hlt
          rw [List.getElem?_eq_none (show (vs.set w.1 w.2).length ≤ w.1 by simpa using hge),
            List.getElem?_eq_none hge]
          rfl
      · rw [List.getElem?_set_ne hj]
        simp [hj]

theorem applyWrites_idem (ws : List (Nat × String)) (vs : List String) :
    applyWrites ws (applyWrites ws vs) = applyWrites ws vs := by
  apply List.ext_getElem?
  intro j
  rw [applyWrites_getElem? ws (applyWrites ws vs) j, applyWrites_getElem? ws vs j]
  cases vs[j]? with
  | none => rfl
  | some v => cases hl : lastWrite ws j <;> simp

theorem lastWrite_none (ws : List (Nat × String)) (j : Nat) (hj : ∀ w ∈ ws, w.1 ≠ j) :
    lastWrite ws j = none := by
  induction ws with
  | nil => rfl
  | cons w ws ih =>
    simp [lastWrite, ih (fun w1 hw1 => hj w1 (List.mem_cons_of_mem _ hw1)),
      hj w (List.mem_cons_self _ _)]

theorem lastWrite_last (ws : List (Nat × String)) :
    ∀ (i : Nat) (hi : i < ws.length),
      (∀ (i1 : Nat) (hi1 : i1 < ws.length), i < i1 → ws[i1].1 ≠ ws[i].1) →
      lastWrite ws ws[i].1 = some ws[i].2 := by
  induction ws with
  | nil => intro i hi; simp at hi
  | cons w ws ih =>
    intro i hi hlater
    cases i with
    | zero =>
      have hnone : lastWrite ws w.1 = none := by
        apply lastWrite_none
        intro w1 hw1
        obtain ⟨n, hn, hget⟩ := List.getElem_of_mem hw1
        have := hlater (n + 1) (by simpa using hn) (Nat.succ_pos n)
        simpa [hget] using this
      simp [lastWrite, hnone]
    | succ i =>
      have hi1 : i < ws.length := by simpa using hi
      have := ih i hi1 (fun i1 hi1' hlt => by
        have := hlater (i1 + 1) (by simpa using hi1') (by omega)
        simpa using this)
      simp [lastWrite, this]
theorem row_eta (r : Row) : (⟨r.Values⟩ : Row) = r := by
  cases r; rfl

theorem lt_length_of_getElem? {h : Heap} {p : RowPtr} {r : Row} (hp : h[p]? = some r) :
    p < h.length := by
  by_contra hge
  rw [List.getElem?_eq_none (Nat.le_of_not_lt hge)] at hp
  cases hp

theorem writeRow_eq (values : List String) (p : RowPtr) :
    ∀ (idxs : List Nat) (i : Nat) (h : Heap) (r : Row), h[p]? = some r →
      (∀ c ∈ idxs, c < r.Values.length) → i + idxs.length ≤ values.length →
      writeRow values p i idxs h =
        some (h.set p ⟨applyWrites (idxs.zip (values.drop i)) r.Values⟩) := by
  intro idxs
  induction idxs with
  | nil =>
    intro i h r hp _ _
    simp only [writeRow, List.zip_nil_left, applyWrites, List.foldl_nil, row_eta,
      set_deref_self h p r hp]
  | cons c rest ih =>
    intro i h r hp hidx hlen
    have hi : i < values.length := by simp only [List.length_cons] at hlen; omega
    have hc : c < r.Values.length := hidx c (List.mem_cons_self _ _)
    have hplt : p < h.length := lt_length_of_getElem? hp
    have hdrop : values.drop i = values[i] :: values.drop (i + 1) := List.drop_eq_getElem_cons hi
    have hp1 : (h.set p ⟨r.Values.set c values[i]⟩)[p]? = some ⟨r.Values.set c values[i]⟩ :=
      List.getElem?_set_self hplt
    have ih1 := ih (i + 1) (h.set p ⟨r.Values.set c values[i]⟩) ⟨r.Values.set c values[i]⟩ hp1
      (fun c1 hc1 => by
        simp only [List.length_set]
        exact hidx c1 (List.mem_cons_of_mem _ hc1))
      (by simp only [List.length_cons] at hlen; omega)
    simp only [writeRow, List.getElem?_eq_getElem hi, hp, hc, if_true, ih1, List.set_set, hdrop,
      List.zip_cons_cons, applyWrites, List.foldl_cons]

theorem updatedRow_length (names : List String) (entries : List (String × String))
    (columns values : List String) (r : Row) :
    (updatedRow names entries columns values r).Values.length = r.Values.length := by
  unfold updatedRow
  split
  · exact applyWrites_length _ _
  · rfl

theorem updatedRow_idem (names : List String) (entries : List (String × String))
    (columns values : List String) (r : Row) :
    updatedRow names entries columns values (updatedRow names entries columns values r) =
      updatedRow names entries columns values r := by
  by_cases hs : Satisfies names entries r
  · simp only [updatedRow, hs, if_true]
    split
    · rw [applyWrites_idem]
    · rfl
  · simp only [updatedRow, hs, if_false]

theorem updateLoop_eq (t : Table) (columns values : List String) (m : StrMap)
    (entries : List (String × String)) (hm : ∀ k, (m.visit k).Perm entries)
    (hkeys : ∀ kv ∈ entries, kv.1 ∈ t.names)
    (hcols : ∀ c ∈ columns, c ∈ t.names)
    (hlen : values.length = columns.length) :
    ∀ (ps : List RowPtr) (k : Nat) (h : Heap),
      (∀ p ∈ ps, ∃ r, h[p]? = some r ∧ r.Values.length = t.Columns.length) →
      ∃ h1, t.updateLoop (columns.map (fun c => t.names.indexOf c)) values m k ps h = .nil t h1 ∧
        h1.length = h.length ∧
        ∀ q, h1[q]? = if q ∈ ps then (h[q]?).map (updatedRow t.names entries columns values)
          else h[q]? := by
  intro ps
  induction ps with
  | nil => intro k h _; exact ⟨h, rfl, rfl, fun q => by simp⟩
  | cons p ps ih =>
    intro k h hvalid
    obtain ⟨r, hp, hw⟩ := hvalid p (List.mem_cons_self _ _)
    have hplt : p < h.length := lt_length_of_getElem? hp
    have hk : ∀ kv ∈ m.visit k, kv.1 ∈ t.Columns.map Column.Name :=
      fun kv hkv => hkeys kv ((hm k).mem_iff.mp hkv)
    have hc := checkRow_eq t.Columns h p r hp hw (m.visit k) hk
    have hsat : Satisfies (t.Columns.map Column.Name) (m.visit k) r ↔
        Satisfies t.names entries r := satisfies_perm (hm k) r
    -- the state after this iteration
    have hstep : t.updateLoop (columns.map (fun c => t.names.indexOf c)) values m k (p :: ps) h =
        t.updateLoop (columns.map (fun c => t.names.indexOf c)) values m (k + 1) ps
          (h.set p (updatedRow t.names entries columns values r)) := by
      by_cases hs : Satisfies t.names entries r
      · have hd : decide (Satisfies (t.Columns.map Column.Name) (m.visit k) r) = true :=
          decide_eq_true (hsat.mpr hs)
        have hwr := writeRow_eq values p (columns.map (fun c => t.names.indexOf c)) 0 h r hp
          (fun c hc => by
            obtain ⟨name, hname, rfl⟩ := List.mem_map.mp hc
            rw [hw, ← List.length_map t.Columns Column.Name]
            exact List.indexOf_lt_length.mpr (hcols name hname))
          (by simp [hlen])
        simp only [Table.updateLoop, hc, hd, hwr, updatedRow, hs, if_true, writesOf,
          List.drop_zero]
      · have hd : decide (Satisfies (t.Columns.map Column.Name) (m.visit k) r) = false :=
          decide_eq_false (fun e => hs (hsat.mp e))
        simp only [Table.updateLoop, hc, hd, updatedRow, hs, if_false, set_deref_self h p r hp]
    have hvalid1 : ∀ q ∈ ps, ∃ r1,
        (h.set p (updatedRow t.names entries columns values r))[q]? = some r1 ∧
          r1.Values.length = t.Columns.length := by
      intro q hq
      by_cases hqp : p = q
      · subst hqp
        exact ⟨_, List.getElem?_set_self hplt, by rw [updatedRow_length, hw]⟩
      · obtain ⟨r1, hr1, hw1⟩ := hvalid q (List.mem_cons_of_mem _ hq)
        exact ⟨r1, by rw [List.getElem?_set_ne hqp, hr1], hw1⟩
    obtain ⟨h1, hrun, hlen1, hget⟩ := ih (k + 1) _ hvalid1
    refine ⟨h1, by rw [hstep, hrun], by rw [hlen1, List.length_set], ?_⟩
    intro q
    rw [hget q]
    by_cases hqp : p = q
    · subst hqp
      simp only [List.mem_cons, true_or, if_true, List.getElem?_set_self hplt, hp,
        Option.map_some', updatedRow_idem]
      split <;> rfl
    · have hqp1 : ¬ q = p := fun e => hqp e.symm
      simp only [List.getElem?_set_ne hqp, List.mem_cons, hqp1, false_or]
/-- C10: on a table whose rows all have `len(Columns)` values, with `columns` and
condition keys that all exist and `len(values) == len(columns)`, `Update`
succeeds, whatever the order in which the conditions are visited; the table
keeps the same rows in the same order; a row that did not satisfy all
conditions is unchanged; a row that satisfied them keeps its length, holds
`values[i]` at the index of `columns[i]` for every `i` that is the last
occurrence of its column name, and is unchanged at every position that no name
in `columns` resolves to. -/
theorem update_writes_matching (t : Table) (h : Heap) (columns values : List String)
    (m : StrMap) (entries : List (String × String)) (rs : List Row)
    (hrows : t.HoldsRows h rs)
    (hwidth : ∀ r ∈ rs, r.Values.length = t.Columns.length)
    (hcols : ∀ c ∈ columns, c ∈ t.names)
    (hlen : values.length = columns.length)
    (hkeys : ∀ kv ∈ entries, kv.1 ∈ t.names)
    (hm : m.Represents entries) :
    ∃ h1, t.Update h columns values m = .nil t h1 ∧
      h1.length = h.length ∧
      (∀ q, q ∉ t.Rows → h1[q]? = h[q]?) ∧
      ∀ p ∈ t.Rows, ∀ r, h[p]? = some r →
        (¬ Satisfies t.names entries r → h1[p]? = some r) ∧
        (Satisfies t.names entries r →
          ∃ r1, h1[p]? = some r1 ∧ r1.Values.length = r.Values.length ∧
            (∀ (i : Nat) (hi : i < columns.length),
              (∀ (i1 : Nat) (hi1 : i1 < columns.length), i < i1 → columns[i1] ≠ columns[i]) →
              r1.Values[t.names.indexOf columns[i]]? = values[i]?) ∧
            (∀ j, (∀ c ∈ columns, t.names.indexOf c ≠ j) → r1.Values[j]? = r.Values[j]?)) := by
  have hvalid : ∀ p ∈ t.Rows, ∃ r, h[p]? = some r ∧ r.Values.length = t.Columns.length := by
    intro p hp
    have hmem : h[p]? ∈ rs.map some := by
      rw [← hrows]; exact List.mem_map_of_mem (fun p => h[p]?) hp
    obtain ⟨r, hr, hpr⟩ := List.mem_map.mp hmem
    exact ⟨r, hpr.symm, hwidth r hr⟩
  obtain ⟨h1, hrun, hlen1, hget⟩ :=
    updateLoop_eq t columns values m entries hm.2 hkeys hcols hlen t.Rows 0 h hvalid
  have hres := resolveColumns_of_mem t.Columns columns hcols
  refine ⟨h1, ?_, hlen1, ?_, ?_⟩
  · simp only [Table.names] at hrun
    simp only [Table.Update, hres, hrun]
  · intro q hq
    rw [hget q, if_neg hq]
  · intro p hp r hpr
    have hp1 : h1[p]? = some (updatedRow t.names entries columns values r) := by
      rw [hget p, if_pos hp, hpr]; rfl
    have hw : r.Values.length = t.names.length := by
      obtain ⟨r0, hr0, hw0⟩ := hvalid p hp
      rw [hpr] at hr0
      cases hr0
      rw [hw0, Table.names, List.length_map]
    constructor
    · intro hs
      rw [hp1, updatedRow, if_neg hs]
    · intro hs
      refine ⟨updatedRow t.names entries columns values r, hp1, updatedRow_length _ _ _ _ r, ?_, ?_⟩
      · intro i hi hlast
        have hwl : (writesOf t.names columns values).length = columns.length := by
          simp [writesOf, hlen]
        have hwi : ∀ (n : Nat) (hn : n < columns.length)
            (hn1 : n < (writesOf t.names columns values).length) (hn2 : n < values.length),
            (writesOf t.names columns values)[n] = (t.names.indexOf columns[n], values[n]) := by
          intro n hn hn1 hn2
          simp [writesOf]
        have hiw : i < (writesOf t.names columns values).length := hwl ▸ hi
        have hiv : i < values.length := hlen ▸ hi
        have hlw := lastWrite_last (writesOf t.names columns values) i hiw
          (fun i1 hi1 hlt => by
            have hi1c : i1 < columns.length := hwl ▸ hi1
            rw [hwi i1 hi1c hi1 (hlen ▸ hi1c), hwi i hi hiw hiv]
            intro heq
            have hinj := (List.indexOf_inj (hcols _ (List.getElem_mem hi1c))
              (hcols _ (List.getElem_mem hi))).mp heq
            exact hlast i1 hi1c hlt hinj)
        rw [hwi i hi hiw hiv] at hlw
        have hidx : t.names.indexOf columns[i] < r.Values.length := by
          rw [hw]; exact List.indexOf_lt_length.mpr (hcols _ (List.getElem_mem hi))
        simp only [updatedRow, hs, if_true, applyWrites_getElem?, hlw,
          List.getElem?_eq_getElem hidx, Option.map_some', Option.getD_some,
          List.getElem?_eq_getElem hiv]
      · intro j hj
        have hnone : lastWrite (writesOf t.names columns values) j = none := by
          apply lastWrite_none
          intro w hw1
          have := (List.of_mem_zip hw1).1
          obtain ⟨c, hc, hcw⟩ := List.mem_map.mp this
          rw [← hcw]
          exact hj c hc
        simp only [updatedRow, hs, if_true, applyWrites_getElem?, hnone, Option.getD_none]
        cases r.Values[j]? <;> rfl

/-- C10 on the table of `TestExecute`: the name of the row with `id = 3` is set. -/
theorem update_writes_matching_witness :
    ∃ h1, executeTable.Update executeRows ["name"] ["Carol"] (StrMap.ofList [("id", "3")]) =
        .nil executeTable h1 ∧
      h1.length = executeRows.length ∧
      (∀ q, q ∉ executeTable.Rows → h1[q]? = executeRows[q]?) ∧
      ∀ p ∈ executeTable.Rows, ∀ r, executeRows[p]? = some r →
        (¬ Satisfies executeTable.names [("id", "3")] r → h1[p]? = some r) ∧
        (Satisfies executeTable.names [("id", "3")] r →
          ∃ r1, h1[p]? = some r1 ∧ r1.Values.length = r.Values.length ∧
            (∀ (i : Nat) (hi : i < ["name"].length),
              (∀ (i1 : Nat) (hi1 : i1 < ["name"].length), i < i1 →
                ["name"][i1] ≠ ["name"][i]) →
              r1.Values[executeTable.names.indexOf ["name"][i]]? = ["Carol"][i]?) ∧
            (∀ j, (∀ c ∈ ["name"], executeTable.names.indexOf c ≠ j) →
              r1.Values[j]? = r.Values[j]?)) :=
  update_writes_matching executeTable executeRows ["name"] ["Carol"]
    (StrMap.ofList [("id", "3")]) [("id", "3")] executeRows
    (by decide) (by decide) (by decide) (by decide) (by decide)
    ⟨by decide, fun _ => List.Perm.refl _⟩

/-! ## Unknown columns and unknown tables -/

theorem resolveColumns_unknown (cols : List Column) (columns : List String)
    (hbad : ∃ c ∈ columns, c ∉ cols.map Column.Name) :
    ∃ c, c ∈ columns ∧ c ∉ cols.map Column.Name ∧ resolveColumns cols columns = .error c := by
  induction columns with
  | nil => obtain ⟨c, hc, _⟩ := hbad; cases hc
  | cons c rest ih =>
    by_cases hc : c ∈ cols.map Column.Name
    · have hrest : ∃ d ∈ rest, d ∉ cols.map Column.Name := by
        obtain ⟨d, hd, hdn⟩ := hbad
        rcases List.mem_cons.mp hd with e | e
        · exact absurd (e ▸ hc) hdn
        · exact ⟨d, e, hdn⟩
      obtain ⟨d, hd, hdn, hres⟩ := ih hrest
      exact ⟨d, List.mem_cons_of_mem _ hd, hdn, by
        simp [resolveColumns, findColumn_of_mem hc, hres]⟩
    · exact ⟨c, List.mem_cons_self _ _, hc, by simp [resolveColumns, findColumn_eq, hc]⟩

/-- A requested column that the table does not have makes `Select` return the
error, whatever the rows and the conditions. -/
theorem select_unknown_column_fails (t : Table) (h : Heap) (columns : List String)
    (m : StrMap) (hbad : ∃ c ∈ columns, c ∉ t.names) :
    ∃ c, c ∈ columns ∧ c ∉ t.names ∧
      t.Select h columns m = .error ("column " ++ c ++ " not found") := by
  obtain ⟨c, hc, hcn, hres⟩ := resolveColumns_unknown t.Columns columns hbad
  exact ⟨c, hc, hcn, by simp [Table.Select, hres]⟩

/-- C11 (the code at inputs with a condition on a column that does not exist):
on a table with no rows `Select` returns an empty result and no error, and on
the rows of `TestExecute` it returns an empty result and no error when every
row fails the condition on `name` before the unknown column `age` is visited. -/
theorem select_unknown_condition_no_error :
    emptyTable.Select [] ["id", "name"] (StrMap.ofList [("age", "7")]) = .ok [] ∧
    executeTable.Select executeRows ["id", "name"]
      (StrMap.ofList [("name", "David"), ("age", "7")]) = .ok [] := by
  decide

theorem invalidCondition_some (cols : List Column) (l : List (String × String))
    (hbad : ∃ kv ∈ l, kv.1 ∉ cols.map Column.Name) :
    ∃ column, column ∈ l.map Prod.fst ∧ column ∉ cols.map Column.Name ∧
      invalidCondition cols l = some column := by
  induction l with
  | nil => obtain ⟨kv, hkv, _⟩ := hbad; cases hkv
  | cons kv rest ih =>
    obtain ⟨k, v⟩ := kv
    by_cases hk : k ∈ cols.map Column.Name
    · have hrest : ∃ kv ∈ rest, kv.1 ∉ cols.map Column.Name := by
        obtain ⟨kv, hkv, hn⟩ := hbad
        rcases List.mem_cons.mp hkv with e | e
        · subst e; exact absurd hk hn
        · exact ⟨kv, e, hn⟩
      obtain ⟨column, hc, hcn, hinv⟩ := ih hrest
      exact ⟨column, List.mem_cons_of_mem _ hc, hcn, by
        simp only [invalidCondition, hasColumn_eq, hk, decide_True, if_true, hinv]⟩
    · exact ⟨k, List.mem_cons_self _ _, hk, by
        simp only [invalidCondition, hasColumn_eq, hk, decide_False, Bool.false_eq_true,
          if_false]⟩

/-- C12: on an existing table, when some key of the conditions is not a column
of the table, `Execute` returns the error of its own validation, naming such a
key: whatever the rows of the table and the objects in the store (also with no
rows at all), so before `Select` filters or projects anything. -/
theorem execute_rejects_unknown_condition (db : Database) (q : Query) (t : Table)
    (entries : List (String × String))
    (htable : db.Tables.lookup q.Table = some t)
    (hm : q.Conditions.Represents entries)
    (hbad : ∃ kv ∈ entries, kv.1 ∉ t.names) :
    ∃ column, column ∈ entries.map Prod.fst ∧ column ∉ t.names ∧
      ∀ h1 : Heap, db.Execute h1 q =
        .error ("invalid query condition: " ++ column ++ " is not a valid column") := by
  have hbad0 : ∃ kv ∈ q.Conditions.visit 0, kv.1 ∉ t.Columns.map Column.Name := by
    obtain ⟨kv, hkv, hn⟩ := hbad
    exact ⟨kv, (hm.2 0).mem_iff.mpr hkv, hn⟩
  obtain ⟨column, hc, hcn, hinv⟩ := invalidCondition_some t.Columns _ hbad0
  refine ⟨column, ?_, hcn, ?_⟩
  · obtain ⟨kv, hkv, hfst⟩ := List.mem_map.mp hc
    exact List.mem_map.mpr ⟨kv, (hm.2 0).mem_iff.mp hkv, hfst⟩
  · intro h1
    simp only [Database.Execute, Database.GetTable, htable, hinv]

/-- C12 on the table of `TestExecute` with a condition on `age`. -/
theorem execute_rejects_unknown_condition_witness :
    ∃ column, column ∈ [("name", "Bob"), ("age", "7")].map Prod.fst ∧
      column ∉ executeTable.names ∧
      ∀ h1 : Heap, executeDb.Execute h1 unknownConditionQuery =
        .error ("invalid query condition: " ++ column ++ " is not a valid column") :=
  execute_rejects_unknown_condition executeDb unknownConditionQuery executeTable
    [("name", "Bob"), ("age", "7")] (by decide) ⟨by decide, fun _ => List.Perm.refl _⟩
    ⟨("age", "7"), by decide, by decide⟩

/-- C13: `GetTable` returns the table registered under `name` when there is one,
and otherwise the error `table <name> does not exist`; `Execute` on a query whose
table is not registered returns that same error, and no rows. -/
theorem getTable_registered_or_error (db : Database) (name : String) :
    (∀ t, db.Tables.lookup name = some t → db.GetTable name = .ok t) ∧
    (db.Tables.lookup name = none →
      db.GetTable name = .error ("table " ++ name ++ " does not exist") ∧
      ∀ (h : Heap) (q : Query), q.Table = name →
        db.Execute h q = .error ("table " ++ name ++ " does not exist")) := by
  constructor
  · intro t ht
    simp only [Database.GetTable, ht]
  · intro hnone
    refine ⟨by simp only [Database.GetTable, hnone], ?_⟩
    intro h q hq
    subst hq
    simp only [Database.Execute, Database.GetTable, hnone]

/-- C13 on the database of `TestGetTable`. -/
theorem getTable_registered_or_error_witness :
    getTableDb.GetTable "test_table" = .ok getTableTable ∧
    getTableDb.GetTable "non_existing_table" =
      .error "table non_existing_table does not exist" :=
  ⟨(getTable_registered_or_error getTableDb "test_table").1 getTableTable (by decide),
    ((getTable_registered_or_error getTableDb "non_existing_table").2 (by decide)).1⟩

/-! ## Row width and arity -/

/-- C14 (the code at a call of `Upsert` with one value on the two-column table of
`TestInsert`, whose rows all have two values): the call succeeds and the table
gains a row of one value. -/
theorem upsert_appends_short_row :
    insertTable.Upsert insertRows ["3"] =
      .nil { insertTable with Rows := [0, 1, 2] }
        [⟨["1", "row1"]⟩, ⟨["2", "row2"]⟩, ⟨["3"]⟩] ∧
    (⟨["3"]⟩ : Row).Values.length ≠ insertTable.Columns.length := by
  decide

theorem writeRow_take (values : List String) (p : RowPtr) (n : Nat) :
    ∀ (idxs : List Nat) (i : Nat) (h : Heap), i + idxs.length ≤ n →
      writeRow (values.take n) p i idxs h = writeRow values p i idxs h := by
  intro idxs
  induction idxs with
  | nil => intro i h _; rfl
  | cons c rest ih =>
    intro i h hle
    have hi : i < n := by simp only [List.length_cons] at hle; omega
    have hrest : ∀ h1 : Heap, writeRow (values.take n) p (i + 1) rest h1 =
        writeRow values p (i + 1) rest h1 :=
      fun h1 => ih (i + 1) h1 (by simp only [List.length_cons] at hle; omega)
    simp only [writeRow, List.getElem?_take, hi, if_true, hrest]

theorem updateLoop_take (t : Table) (idxs : List Nat) (values : List String) (m : StrMap) :
    ∀ (ps : List RowPtr) (k : Nat) (h : Heap),
      t.updateLoop idxs (values.take idxs.length) m k ps h = t.updateLoop idxs values m k ps h := by
  intro ps
  induction ps with
  | nil => intro k h; rfl
  | cons p ps ih =>
    intro k h
    have hw : writeRow (values.take idxs.length) p 0 idxs h = writeRow values p 0 idxs h :=
      writeRow_take values p idxs.length idxs 0 h (by omega)
    simp only [Table.updateLoop, hw, ih]

theorem update_take (t : Table) (h : Heap) (columns values : List String) (m : StrMap)
    (hcols : ∀ c ∈ columns, c ∈ t.names) :
    t.Update h columns (values.take columns.length) m = t.Update h columns values m := by
  have hres := resolveColumns_of_mem t.Columns columns hcols
  have hl := updateLoop_take t (columns.map (fun c => (t.Columns.map Column.Name).indexOf c))
    values m t.Rows 0 h
  simp only [List.length_map] at hl
  simp only [Table.Update, hres, hl]

/-- C15, counterexample: with two columns and one value, `Update` panics at
`values[1]` on the row of `TestExecute` that satisfies `id = 3`. -/
theorem update_short_values_panics :
    executeTable.Update executeRows ["id", "name"] ["9"] (StrMap.ofList [("id", "3")]) =
      .panic := by
  decide

/-- C15, amended: on a table whose rows all have `len(Columns)` values, with
`columns` and condition keys that all exist and `len(values) >= len(columns)`,
`Update` does not fail: it does what it does with `values[:len(columns)]`, so
each satisfying row receives the first `len(columns)` column/value pairs and
the surplus values are never read. -/
theorem update_ignores_surplus_values (t : Table) (h : Heap) (columns values : List String)
    (m : StrMap) (entries : List (String × String)) (rs : List Row)
    (hrows : t.HoldsRows h rs)
    (hwidth : ∀ r ∈ rs, r.Values.length = t.Columns.length)
    (hcols : ∀ c ∈ columns, c ∈ t.names)
    (hlen : columns.length ≤ values.length)
    (hkeys : ∀ kv ∈ entries, kv.1 ∈ t.names)
    (hm : m.Represents entries) :
    ∃ h1, t.Update h columns values m = .nil t h1 ∧
      t.Update h columns (values.take columns.length) m = .nil t h1 ∧
      h1.length = h.length ∧
      ∀ q, h1[q]? =
        if q ∈ t.Rows then
          (h[q]?).map (updatedRow t.names entries columns (values.take columns.length))
        else h[q]? := by
  have hvalid : ∀ p ∈ t.Rows, ∃ r, h[p]? = some r ∧ r.Values.length = t.Columns.length := by
    intro p hp
    have hmem : h[p]? ∈ rs.map some := by
      rw [← hrows]; exact List.mem_map_of_mem (fun p => h[p]?) hp
    obtain ⟨r, hr, hpr⟩ := List.mem_map.mp hmem
    exact ⟨r, hpr.symm, hwidth r hr⟩
  have hlen1 : (values.take columns.length).length = columns.length := by
    rw [List.length_take]; omega
  obtain ⟨h1, hrun, hlenh, hget⟩ := updateLoop_eq t columns (values.take columns.length) m
    entries hm.2 hkeys hcols hlen1 t.Rows 0 h hvalid
  have hres := resolveColumns_of_mem t.Columns columns hcols
  have htake : t.Update h columns (values.take columns.length) m = .nil t h1 := by
    simp only [Table.names] at hrun
    simp only [Table.Update, hres, hrun]
  exact ⟨h1, by rw [← update_take t h columns values m hcols, htake], htake, hlenh, hget⟩

/-- C15, amended, on the table of `TestExecute`: one column, two values. -/
theorem update_ignores_surplus_values_witness :
    ∃ h1, executeTable.Update executeRows ["name"] ["Carol", "Dan"]
          (StrMap.ofList [("id", "3")]) = .nil executeTable h1 ∧
      executeTable.Update executeRows ["name"] (["Carol", "Dan"].take ["name"].length)
          (StrMap.ofList [("id", "3")]) = .nil executeTable h1 ∧
      h1.length = executeRows.length ∧
      ∀ q, h1[q]? =
        if q ∈ executeTable.Rows then
          (executeRows[q]?).map (updatedRow executeTable.names [("id", "3")] ["name"]
            (["Carol", "Dan"].take ["name"].length))
        else executeRows[q]? :=
  update_ignores_surplus_values executeTable executeRows ["name"] ["Carol", "Dan"]
    (StrMap.ofList [("id", "3")]) [("id", "3")] executeRows
    (by decide) (by decide) (by decide) (by decide) (by decide)
    ⟨by decide, fun _ => List.Perm.refl _⟩

/-! ## CreateTable -/

/-- C16: when `name` is already registered, `CreateTable` returns the error
`table <name> already exists` and leaves the database (`Version`, `Tables`, the
registered table) and the file system as they were: no directory is made and no
file is created or written. -/
theorem createTable_existing_fails (std : Std) (db : Database) (fs : FS) (name : String)
    (columns : List String) (t : Table) (hreg : db.Tables.lookup name = some t) :
    db.CreateTable std fs name columns =
      .error (.errorf ("table " ++ name ++ " already exists")) db fs := by
  simp only [Database.CreateTable, hreg]

/-- C16 on the database of `TestCreateTable` after the table was created. -/
theorem createTable_existing_fails_witness :
    createTableDbAfter.CreateTable plainStd createTableFSAfter "test_table" ["column1"] =
      .error (.errorf ("table " ++ "test_table" ++ " already exists")) createTableDbAfter
        createTableFSAfter :=
  createTable_existing_fails plainStd createTableDbAfter createTableFSAfter "test_table"
    ["column1"]
    ⟨"test_table", [⟨"column1", "string"⟩, ⟨"column2", "string"⟩, ⟨"column3", "string"⟩], []⟩
    (by decide)

theorem lookup_filter_ne (files : List (Path × String)) (p q : Path) (hne : q ≠ p) :
    (files.filter (fun e => decide (e.1 ≠ p))).lookup q = files.lookup q := by
  induction files with
  | nil => rfl
  | cons e rest ih =>
    obtain ⟨k, v⟩ := e
    by_cases hk : k = p
    · have hd : decide ((k, v).1 ≠ p) = false := by simp [hk]
      have hqk : (q == k) = false := by simp [hk, hne]
      rw [List.filter_cons, hd]
      simp only [Bool.false_eq_true, if_false, List.lookup_cons, hqk]
      exact ih
    · have hd : decide ((k, v).1 ≠ p) = true := by simp [hk]
      rw [List.filter_cons, hd]
      simp only [if_true, List.lookup_cons]
      cases (q == k) with
      | true => rfl
      | false => exact ih

theorem readFile_writeFile_ne (fs : FS) (p q : Path) (content : String) (hne : q ≠ p) :
    (fs.writeFile p content).readFile q = fs.readFile q := by
  have hqp : (q == p) = false := by simpa using hne
  simp only [FS.readFile, FS.writeFile, FS.isDir, List.lookup_cons, hqp,
    lookup_filter_ne fs.files p q hne]

theorem readFile_writeFile_self (fs : FS) (p : Path) (content : String)
    (hdir : fs.isDir p = false) : (fs.writeFile p content).readFile p = some content := by
  have hdir1 : (fs.writeFile p content).isDir p = false := hdir
  unfold FS.readFile
  rw [hdir1]
  simp [FS.writeFile, List.lookup_cons]

theorem writeFile_isDir (fs : FS) (p q : Path) (content : String) :
    (fs.writeFile p content).isDir q = fs.isDir q := rfl

theorem mkdirFrom_spec : ∀ (es : List String) (fs fs1 : FS) (base : Path),
    fs.mkdirFrom base es = some fs1 →
      fs1.files = fs.files ∧
      ∀ q, q ∈ fs1.dirs → q ∈ fs.dirs ∨ (base.length < q.length ∧ q <+: base ++ es) := by
  intro es
  induction es with
  | nil =>
    intro fs fs1 base hmk
    simp only [FS.mkdirFrom, Option.some.injEq] at hmk
    subst hmk
    exact ⟨rfl, fun q hq => Or.inl hq⟩
  | cons e rest ih =>
    intro fs fs1 base hmk
    simp only [FS.mkdirFrom] at hmk
    split at hmk
    · cases hmk
    · split at hmk
      · obtain ⟨hfiles, hdirs⟩ := ih _ _ _ hmk
        refine ⟨hfiles, fun q hq => ?_⟩
        rcases hdirs q hq with hold | ⟨hlen, hpre⟩
        · exact Or.inl hold
        · refine Or.inr ⟨?_, ?_⟩
          · simp only [List.length_append, List.length_singleton] at hlen; omega
          · simpa using hpre
      · obtain ⟨hfiles, hdirs⟩ := ih _ _ _ hmk
        refine ⟨hfiles, fun q hq => ?_⟩
        rcases hdirs q hq with hold | ⟨hlen, hpre⟩
        · simp only [List.mem_append, List.mem_singleton] at hold
          rcases hold with hold | hnew
          · exact Or.inl hold
          · subst hnew
            refine Or.inr ⟨by simp, ?_⟩
            exact ⟨rest, by simp⟩
        · refine Or.inr ⟨?_, ?_⟩
          · simp only [List.length_append, List.length_singleton] at hlen; omega
          · simpa using hpre

theorem findMetadataRow_none (name : String) :
    ∀ (metadata : List (List String)) (i : Nat), findMetadataRow name i metadata = some none →
      updatedMetadata name metadata = metadata ++ [[name, "", ""]] := by
  intro metadata
  induction metadata with
  | nil => intro i _; rfl
  | cons row rest ih =>
    intro i hfind
    cases row with
    | nil => simp [findMetadataRow] at hfind
    | cons field fields =>
      simp only [findMetadataRow, List.getElem?_cons_zero] at hfind
      by_cases hf : field = name
      · simp [hf] at hfind
      · simp only [hf, if_false] at hfind
        simp [updatedMetadata, hf, ih (i + 1) hfind]

theorem findMetadataRow_some (name : String) :
    ∀ (metadata : List (List String)) (i j : Nat),
      findMetadataRow name i metadata = some (some j) →
      ∃ k row, j = i + k ∧ metadata[k]? = some row ∧
        updatedMetadata name metadata = metadata.set k ((row.set 1 "").set 2 "") := by
  intro metadata
  induction metadata with
  | nil => intro i j hfind; simp [findMetadataRow] at hfind
  | cons row rest ih =>
    intro i j hfind
    cases row with
    | nil => simp [findMetadataRow] at hfind
    | cons field fields =>
      simp only [findMetadataRow, List.getElem?_cons_zero] at hfind
      by_cases hf : field = name
      · simp only [hf, if_true, Option.some.injEq] at hfind
        exact ⟨0, field :: fields, by omega, by simp, by simp [updatedMetadata, hf]⟩
      · simp only [hf, if_false] at hfind
        obtain ⟨k, r, hj, hget, hupd⟩ := ih (i + 1) j hfind
        exact ⟨k + 1, r, by omega, by simpa using hget, by simp [updatedMetadata, hf, hupd]⟩

theorem clearMetadataRow_eq (name : String) (metadata metadata1 : List (List String))
    (found : Option Nat) (hfind : findMetadataRow name 0 metadata = some found)
    (hclear : clearMetadataRow (if found.isNone then metadata ++ [[name, "", ""]] else metadata)
      (found.getD metadata.length) = some metadata1) :
    metadata1 = updatedMetadata name metadata := by
  cases found with
  | none =>
    have hupd := findMetadataRow_none name metadata 0 hfind
    simp only [Option.isNone_none, if_true, Option.getD_none, clearMetadataRow,
      List.getElem?_concat_length, List.length_cons, List.length_nil] at hclear
    rw [if_pos (by omega)] at hclear
    simp only [Option.some.injEq] at hclear
    rw [hupd, ← hclear]
    apply List.ext_getElem?
    intro n
    by_cases hn : metadata.length = n
    · subst hn
      simp [List.getElem?_set_self]
    · rw [List.getElem?_set_ne hn]
  | some j =>
    obtain ⟨k, row, hj, hget, hupd⟩ := findMetadataRow_some name metadata 0 j hfind
    have hjk : j = k := by omega
    subst hjk
    simp only [Option.isNone_some, Bool.false_eq_true, if_false, Option.getD_some,
      clearMetadataRow, hget] at hclear
    split at hclear
    · simp only [Option.some.injEq] at hclear
      rw [hupd, ← hclear]
    · cases hclear

theorem mkdirFrom_dirs_subset : ∀ (es : List String) (fs fs1 : FS) (base : Path),
    fs.mkdirFrom base es = some fs1 → ∀ q, q ∈ fs.dirs → q ∈ fs1.dirs := by
  intro es
  induction es with
  | nil =>
    intro fs fs1 base hmk q hq
    simp only [FS.mkdirFrom, Option.some.injEq] at hmk
    subst hmk
    exact hq
  | cons e rest ih =>
    intro fs fs1 base hmk q hq
    simp only [FS.mkdirFrom] at hmk
    split at hmk
    · cases hmk
    · split at hmk
      · exact ih _ _ _ hmk q hq
      · exact ih _ _ _ hmk q (List.mem_append_left _ hq)

theorem create_eq (fs fs1 : FS) (p : Path) (hcr : fs.create p = some fs1) :
    fs1 = fs.writeFile p "" ∧ fs.isDir p = false := by
  unfold FS.create at hcr
  split at hcr
  · rename_i hcond
    simp only [Bool.and_eq_true, Bool.not_eq_true'] at hcond
    simp only [Option.some.injEq] at hcr
    exact ⟨hcr.symm, hcond.2⟩
  · cases hcr

theorem parseCSV_congr (std : Std) (fs fs1 : FS) (p : Path)
    (hread : fs1.readFile p = fs.readFile p) : parseCSV std fs1 p = parseCSV std fs p := by
  simp only [parseCSV, hread]

theorem readFile_mkdirAll (fs fs1 : FS) (p q : Path) (content : String)
    (hmk : fs.mkdirAll p = some fs1) (hread : fs1.readFile q = some content) :
    fs.readFile q = some content := by
  obtain ⟨hfiles, _⟩ := mkdirFrom_spec p fs fs1 [] hmk
  have hsub := mkdirFrom_dirs_subset p fs fs1 [] hmk
  unfold FS.readFile at hread ⊢
  have hdir1 : fs1.isDir q = false := by
    cases hd : fs1.isDir q with
    | false => rfl
    | true => simp [hd] at hread
  have hdir : fs.isDir q = false := by
    cases hd : fs.isDir q with
    | false => rfl
    | true =>
      simp only [FS.isDir, Bool.or_eq_true, decide_eq_true_eq] at hd
      simp only [FS.isDir, Bool.or_eq_false_iff, decide_eq_false_iff_not] at hdir1
      rcases hd with hd | hd
      · exact absurd hd hdir1.1
      · exact absurd (hsub q hd) hdir1.2
  simp only [hdir1, Bool.false_eq_true, if_false] at hread
  simp only [hdir, Bool.false_eq_true, if_false, ← hfiles, hread]

/-- C17: when `CreateTable(name, columns)` succeeds, `Version` is the old `Version`
plus one (the addition of Go's `int`; the integer sum below the largest `int`),
`Tables[name]` is a table named `name` whose columns are `columns` in order, each
of type `"string"`, with no rows; every other registered table is as it was; and
`metadata.csv` holds, as written by the CSV writer, the metadata read from it
with the column and type fields of the first row for `name` emptied, or with the
row `(name, "", "")` appended when there was no such row. -/
theorem createTable_success (std : Std) (db : Database) (fs : FS) (name : String)
    (columns : List String) (db1 : Database) (fs1 : FS)
    (hok : db.CreateTable std fs name columns = .nil db1 fs1) :
    db.Tables.lookup name = none ∧
    db1.Version = addInt db.Version 1 ∧
    (-(2 ^ 63) ≤ db.Version → db.Version < 2 ^ 63 - 1 → db1.Version = db.Version + 1) ∧
    db1.Path = db.Path ∧
    db1.Tables.lookup name =
      some ⟨name, columns.map (fun columnName => ⟨columnName, "string"⟩), []⟩ ∧
    (∀ other, other ≠ name → db1.Tables.lookup other = db.Tables.lookup other) ∧
    ∃ metadata, parseCSV std fs [db.Path, "metadata.csv"] = .ok metadata ∧
      fs1.readFile [db.Path, "metadata.csv"] =
        some (std.csvWrite (updatedMetadata name metadata)) := by
  unfold Database.CreateTable at hok
  cases hlook : db.Tables.lookup name with
  | some t => simp [hlook] at hok
  | none =>
    simp only [hlook] at hok
    cases hmk : fs.mkdirAll (getTablePath [db.Path] name) with
    | none => simp [hmk] at hok
    | some fsA =>
      simp only [hmk] at hok
      cases hcr : fsA.create (getCSVFilePath (getTablePath [db.Path] name) "data") with
      | none => simp [hcr] at hok
      | some fsB =>
        simp only [hcr] at hok
        cases hparse : parseCSV std
            (fsB.writeFile (getCSVFilePath (getTablePath [db.Path] name) "data")
              (String.intercalate "," columns ++ "\n")) [db.Path, "metadata.csv"] with
        | error err => simp [hparse] at hok
        | ok metadata =>
          simp only [hparse] at hok
          cases hfind : findMetadataRow name 0 metadata with
          | none => simp [hfind] at hok
          | some found =>
            rw [hfind] at hok
            dsimp only at hok
            cases hclear : clearMetadataRow
                (if found.isNone then metadata ++ [[name, "", ""]] else metadata)
                (found.getD metadata.length) with
            | none => rw [hclear] at hok; cases hok
            | some metadata1 =>
              rw [hclear] at hok
              dsimp only at hok
              cases hwrite : writeCSV std
                  (fsB.writeFile (getCSVFilePath (getTablePath [db.Path] name) "data")
                    (String.intercalate "," columns ++ "\n"))
                  [db.Path, "metadata.csv"] metadata1 with
              | none => simp [hwrite] at hok
              | some fs4 =>
                simp only [hwrite, CreateResult.nil.injEq] at hok
                obtain ⟨hdb, hfs⟩ := hok
                subst hdb
                subst hfs
                have hne : ([db.Path, "metadata.csv"] : Path) ≠
                    getCSVFilePath (getTablePath [db.Path] name) "data" := by
                  simp [getCSVFilePath, getTablePath]
                obtain ⟨hfsB, _⟩ := create_eq _ _ _ hcr
                -- the metadata read is the metadata of the file system as given
                have hparse0 : parseCSV std fs [db.Path, "metadata.csv"] = .ok metadata := by
                  cases hrd : FS.readFile
                      (fsB.writeFile (getCSVFilePath (getTablePath [db.Path] name) "data")
                        (String.intercalate "," columns ++ "\n")) [db.Path, "metadata.csv"] with
                  | none => simp [parseCSV, hrd] at hparse
                  | some content =>
                    have h1 := hrd
                    rw [readFile_writeFile_ne _ _ _ _ hne, hfsB,
                      readFile_writeFile_ne _ _ _ _ hne] at h1
                    have h2 := readFile_mkdirAll fs fsA _ _ content hmk h1
                    rw [← hparse]
                    exact (parseCSV_congr std _ _ _ (hrd.trans h2.symm)).symm
                -- the metadata written
                have hwritten : fs4.readFile [db.Path, "metadata.csv"] =
                    some (std.csvWrite metadata1) := by
                  unfold writeCSV at hwrite
                  cases hcr2 : FS.create
                      (fsB.writeFile (getCSVFilePath (getTablePath [db.Path] name) "data")
                        (String.intercalate "," columns ++ "\n")) [db.Path, "metadata.csv"] with
                  | none => simp [hcr2] at hwrite
                  | some fsC =>
                    simp only [hcr2, Option.some.injEq] at hwrite
                    obtain ⟨hfsC, hdirC⟩ := create_eq _ _ _ hcr2
                    rw [← hwrite]
                    apply readFile_writeFile_self
                    rw [hfsC, writeFile_isDir]
                    exact hdirC
                have hmeta := clearMetadataRow_eq name metadata metadata1 found hfind hclear
                refine ⟨rfl, rfl, ?_, rfl, ?_, ?_, metadata, hparse0, ?_⟩
                · intro hlo hhi
                  show addInt db.Version 1 = db.Version + 1
                  unfold addInt
                  omega
                · simp [List.lookup_cons]
                · intro other hother
                  have hb : (other == name) = false := by simpa using hother
                  simp [List.lookup_cons, hb]
                · rw [hwritten, hmeta]

/-- C17 on the database and the directory of `TestCreateTable`: the empty
metadata becomes the one row `test_table,,` and `Version` 1 becomes 2. -/
theorem createTable_success_witness :
    createTableDb.Tables.lookup "test_table" = none ∧
    createTableDbAfter.Version = addInt createTableDb.Version 1 ∧
    (-(2 ^ 63) ≤ createTableDb.Version → createTableDb.Version < 2 ^ 63 - 1 →
      createTableDbAfter.Version = createTableDb.Version + 1) ∧
    createTableDbAfter.Path = createTableDb.Path ∧
    createTableDbAfter.Tables.lookup "test_table" =
      some ⟨"test_table",
        ["column1", "column2", "column3"].map (fun columnName => ⟨columnName, "string"⟩), []⟩ ∧
    (∀ other, other ≠ "test_table" →
      createTableDbAfter.Tables.lookup other = createTableDb.Tables.lookup other) ∧
    ∃ metadata, parseCSV plainStd createTableFS [createTableDb.Path, "metadata.csv"] =
        .ok metadata ∧
      createTableFSAfter.readFile [createTableDb.Path, "metadata.csv"] =
        some (plainStd.csvWrite (updatedMetadata "test_table" metadata)) :=
  createTable_success plainStd createTableDb createTableFS "test_table"
    ["column1", "column2", "column3"] createTableDbAfter createTableFSAfter (by decide)

/-! ## Open -/

/-- C19 (the code on the directory of `TestCreateTable` with a `version.txt`):
`CreateTable` succeeds and writes the header to
`.csvdb/test_table/.csvdb/data/data.csv`; `Open` then looks for
`.csvdb/test_table/data.csv`, which nothing has written, and returns the error
of opening it, so no table comes back. -/
theorem createTable_then_open_fails :
    createTableDb.CreateTable plainStd roundTripFS "test_table"
        ["column1", "column2", "column3"] = .nil createTableDbAfter roundTripFSAfter ∧
    roundTripFSAfter.readFile
        ["/tmp/csvdb_test", ".csvdb", "test_table", ".csvdb", "data", "data.csv"] =
      some "column1,column2,column3\n" ∧
    createTableDbAfter.Open plainStd roundTripFSAfter [] "/tmp/csvdb_test" =
      .error (.os "open" ["/tmp/csvdb_test", ".csvdb", "test_table", "data.csv"]) := by
  decide

/-- A table directory whose data file parses to zero records makes the body of
the loop of `Open` panic at `tableRows[0]`. -/
theorem loadTable_zero_records (std : Std) (fs : FS) (path : String)
    (metadataRows : List (List String)) (h : Heap) (tableName : String)
    (hzero : parseCSV std fs (getCSVFilePath [path] tableName) = .ok []) :
    loadTable std fs path metadataRows h tableName = .panic := by
  simp only [loadTable, hzero]

/-- C20 (the code on a database directory whose one table has an empty
`data.csv`): the file parses to zero records without an error and `Open` panics
at `tableRows[0]`. -/
theorem open_empty_data_file_panics :
    emptyDataFS.readFile (getCSVFilePath ["/tmp/test_db"] "table1") = some "" ∧
    plainStd.csvRead "" = some [] ∧
    zeroDb.Open plainStd emptyDataFS [] "/tmp/test_db" = .panic := by
  decide

theorem typeAfter_cons (tableName columnName current : String) (row : List String)
    (rest : List (List String)) (hrest : ∀ r ∈ rest, 2 < r.length) :
    typeAfter tableName columnName current (row :: rest) =
      typeAfter tableName columnName
        (if typesColumn tableName columnName row then row.getD 2 current else current) rest := by
  unfold typeAfter
  cases hrow : typesColumn tableName columnName row with
  | false => simp [List.filter_cons, hrow]
  | true =>
    simp only [List.filter_cons, hrow, if_true, List.getLast?_cons]
    cases hlast : (rest.filter (typesColumn tableName columnName)).getLast? with
    | none => rfl
    | some r =>
      have hmem : r ∈ rest := List.mem_of_mem_filter (List.mem_of_getLast?_eq_some hlast)
      have hlen := hrest r hmem
      simp only [Option.getD_some, List.getD_eq_getElem?_getD, List.getElem?_eq_getElem hlen]

theorem setColumnType_names (columnName columnType : String) (cols : List Column) :
    (setColumnType columnName columnType cols).map Column.Name = cols.map Column.Name := by
  induction cols with
  | nil => rfl
  | cons c cs ih =>
    by_cases hc : c.Name = columnName
    · simp [setColumnType, hc]
    · simp [setColumnType, hc, ih]

theorem setColumnType_getElem? (columnName columnType : String) :
    ∀ (cols : List Column) (i : Nat),
      (setColumnType columnName columnType cols)[i]? =
        (cols[i]?).map (fun c =>
          if c.Name = columnName ∧ (cols.map Column.Name).indexOf columnName = i then
            { c with Type_ := columnType }
          else c) := by
  intro cols
  induction cols with
  | nil => intro i; rfl
  | cons c cs ih =>
    intro i
    by_cases hc : c.Name = columnName
    · cases i with
      | zero => simp [setColumnType, hc]
      | succ i =>
        simp only [setColumnType, hc, if_true, List.getElem?_cons_succ, List.map_cons,
          List.indexOf_cons_self]
        cases cs[i]? with
        | none => rfl
        | some c2 => simp
    · cases i with
      | zero => simp [setColumnType, hc]
      | succ i =>
        simp only [setColumnType, hc, if_false, List.getElem?_cons_succ, ih i, List.map_cons,
          List.indexOf_cons_ne _ hc, Nat.succ_eq_add_one, Nat.add_right_cancel_iff]

theorem applyMetadata_spec (tableName : String) :
    ∀ (rows : List (List String)) (cols : List Column), (∀ r ∈ rows, r.length = 3) →
      ∃ cols1, applyMetadata tableName rows cols = some cols1 ∧
        ∀ i, cols1[i]? = (cols[i]?).map (fun c =>
          if (cols.map Column.Name).indexOf c.Name = i then
            { c with Type_ := typeAfter tableName c.Name c.Type_ rows }
          else c) := by
  intro rows
  induction rows with
  | nil =>
    intro cols _
    refine ⟨cols, rfl, fun i => ?_⟩
    cases cols[i]? with
    | none => rfl
    | some c => simp [typeAfter]
  | cons row rest ih =>
    intro cols hrows
    have hrest : ∀ r ∈ rest, r.length = 3 := fun r hr => hrows r (List.mem_cons_of_mem _ hr)
    have hrest2 : ∀ r ∈ rest, 2 < r.length := fun r hr => by rw [hrest r hr]; omega
    have hrow := hrows row (List.mem_cons_self _ _)
    match row, hrow with
    | [f0, f1, f2], _ =>
      by_cases hmatch : f0 = tableName ∧ f1 ≠ ""
      · obtain ⟨h0, h1⟩ := hmatch
        obtain ⟨cols1, happly, hget⟩ := ih (setColumnType f1 f2 cols) hrest
        refine ⟨cols1, ?_, fun i => ?_⟩
        · simp [applyMetadata, h0, h1, happly]
        · rw [hget i, setColumnType_getElem?, setColumnType_names]
          cases cols[i]? with
          | none => rfl
          | some c =>
            simp only [Option.map_some', Option.some.injEq]
            by_cases hi : (cols.map Column.Name).indexOf c.Name = i
            · by_cases hc : c.Name = f1
              · subst hc
                have hty : typesColumn tableName c.Name [f0, c.Name, f2] = true := by
                  simp [typesColumn, h0, h1]
                simp [hi, typeAfter_cons _ _ _ _ _ hrest2, hty]
              · have hty : typesColumn tableName c.Name [f0, f1, f2] = false := by
                  have hc1 : ¬ f1 = c.Name := fun e => hc e.symm
                  simp [typesColumn, hc1]
                simp [hc, hi, typeAfter_cons _ _ _ _ _ hrest2, hty]
            · have hg : ¬ (c.Name = f1 ∧ (cols.map Column.Name).indexOf f1 = i) := by
                rintro ⟨e1, e2⟩
                exact hi (e1 ▸ e2)
              simp [hg, hi]
      · obtain ⟨cols1, happly, hget⟩ := ih cols hrest
        have hty : ∀ n, typesColumn tableName n [f0, f1, f2] = false := by
          intro n
          by_cases h0 : f0 = tableName
          · have h1 : f1 = "" := by
              by_contra hne
              exact hmatch ⟨h0, hne⟩
            simp only [typesColumn, List.getElem?_cons_zero, List.getElem?_cons_succ,
              Option.some.injEq, decide_eq_false_iff_not, not_and, h1]
            intro _ hn
            simp [← hn]
          · simp [typesColumn, h0]
        refine ⟨cols1, ?_, fun i => ?_⟩
        · by_cases h0 : f0 = tableName
          · have h1 : f1 = "" := by
              by_contra hne
              exact hmatch ⟨h0, hne⟩
            simp [applyMetadata, h0, h1, happly]
          · simp [applyMetadata, h0, happly]
        · rw [hget i]
          cases cols[i]? with
          | none => rfl
          | some c => simp [typeAfter_cons _ _ _ _ _ hrest2, hty]
theorem holdsRows_append (t : Table) (h extra : Heap) (rs : List Row)
    (hrows : t.HoldsRows h rs) : t.HoldsRows (h ++ extra) rs := by
  unfold Table.HoldsRows at hrows ⊢
  have hlt := lt_length_of_deref hrows
  rw [← hrows]
  apply List.map_congr_left
  intro q hq
  exact List.getElem?_append_left (hlt q hq)

theorem appendRows_spec : ∀ (dataRows : List (List String)) (rows : List RowPtr) (h : Heap)
    (rs : List Row), rows.map (fun p => h[p]?) = rs.map some →
      (appendRows dataRows rows h).2 = h ++ dataRows.map Row.mk ∧
      (appendRows dataRows rows h).1.map (fun p => (h ++ dataRows.map Row.mk)[p]?) =
        (rs ++ dataRows.map Row.mk).map some := by
  intro dataRows
  induction dataRows with
  | nil =>
    intro rows h rs hrows
    simp only [appendRows, List.map_nil, List.append_nil]
    exact ⟨trivial, hrows⟩
  | cons d ds ih =>
    intro rows h rs hrows
    have hcat : (rows ++ [h.length]).map (fun p => (h ++ [(⟨d⟩ : Row)])[p]?) =
        (rs ++ [(⟨d⟩ : Row)]).map some :=
      holdsRows_concat ⟨"", [], rows⟩ h rs ⟨d⟩ hrows
    obtain ⟨hheap, hptrs⟩ := ih (rows ++ [h.length]) (h ++ [⟨d⟩]) (rs ++ [⟨d⟩]) hcat
    simp only [appendRows, List.map_cons]
    refine ⟨by rw [hheap]; simp, ?_⟩
    simpa using hptrs

theorem loadTable_spec (std : Std) (fs : FS) (path : String) (metadataRows : List (List String))
    (h : Heap) (tableName : String) (header : List String) (dataRows : List (List String))
    (hmeta3 : ∀ row ∈ metadataRows, row.length = 3)
    (hparse : parseCSV std fs (getCSVFilePath [path] tableName) = .ok (header :: dataRows)) :
    ∃ t, loadTable std fs path metadataRows h tableName = .ok (t, h ++ dataRows.map Row.mk) ∧
      TableBuilt metadataRows tableName header dataRows t (h ++ dataRows.map Row.mk) := by
  obtain ⟨cols1, happly, hget⟩ := applyMetadata_spec tableName metadataRows
    (header.map (fun columnName => (⟨columnName, "string"⟩ : Column))) hmeta3
  obtain ⟨hheap, hptrs⟩ := appendRows_spec dataRows [] h [] rfl
  have hnames0 : (header.map (fun columnName => (⟨columnName, "string"⟩ : Column))).map
      Column.Name = header := by
    simp [List.map_map, Function.comp_def]
  rw [hnames0] at hget
  refine ⟨⟨tableName, cols1, (appendRows dataRows [] h).1⟩, ?_, rfl, ?_, ?_, ?_⟩
  · simp only [loadTable, hparse, happly, hheap]
  · apply List.ext_getElem?
    intro i
    rw [List.getElem?_map, hget i, List.getElem?_map]
    cases header[i]? with
    | none => rfl
    | some n =>
      simp only [Option.map_some']
      split <;> rfl
  · intro i
    show (cols1[i]?).map Column.Type_ = _
    rw [hget i, List.getElem?_map]
    cases header[i]? with
    | none => rfl
    | some n =>
      simp only [Option.map_some', overlayType]
      split <;> rfl
  · simpa [Table.HoldsRows] using hptrs

theorem tableBuilt_append (metadataRows : List (List String)) (name : String)
    (header : List String) (dataRows : List (List String)) (t : Table) (h extra : Heap)
    (hbuilt : TableBuilt metadataRows name header dataRows t h) :
    TableBuilt metadataRows name header dataRows t (h ++ extra) :=
  ⟨hbuilt.1, hbuilt.2.1, hbuilt.2.2.1, holdsRows_append t h extra _ hbuilt.2.2.2⟩

theorem openTables_spec (std : Std) (fs : FS) (path : String) (metadataRows : List (List String))
    (hmeta3 : ∀ row ∈ metadataRows, row.length = 3) :
    ∀ (entries : List DirEntry) (tables : List (String × Table)) (h : Heap),
      (∀ e ∈ entries, e.IsDir = true → ∃ header dataRows,
        parseCSV std fs (getCSVFilePath [path] e.Name) = .ok (header :: dataRows)) →
      (∀ name t, tables.lookup name = some t → ∃ header dataRows,
        parseCSV std fs (getCSVFilePath [path] name) = .ok (header :: dataRows) ∧
          TableBuilt metadataRows name header dataRows t h) →
      ∃ tables1 h1, openTables std fs path metadataRows entries tables h = .ok (tables1, h1) ∧
        (∀ name t, tables1.lookup name = some t → ∃ header dataRows,
          parseCSV std fs (getCSVFilePath [path] name) = .ok (header :: dataRows) ∧
            TableBuilt metadataRows name header dataRows t h1) ∧
        (∀ name, (tables.lookup name).isSome = true → (tables1.lookup name).isSome = true) ∧
        (∀ e ∈ entries, e.IsDir = true → (tables1.lookup e.Name).isSome = true) := by
  intro entries
  induction entries with
  | nil =>
    intro tables h _ hinv
    exact ⟨tables, h, rfl, hinv, fun _ hn => hn, fun e he => by cases he⟩
  | cons e rest ih =>
    intro tables h hdata hinv
    have hdata1 : ∀ e1 ∈ rest, e1.IsDir = true → ∃ header dataRows,
        parseCSV std fs (getCSVFilePath [path] e1.Name) = .ok (header :: dataRows) :=
      fun e1 he1 => hdata e1 (List.mem_cons_of_mem _ he1)
    cases hdir : e.IsDir with
    | false =>
      obtain ⟨tables1, h1, hrun, hinv1, hmono, hall⟩ := ih tables h hdata1 hinv
      refine ⟨tables1, h1, by simp only [openTables, hdir, hrun, Bool.not_false, if_true],
        hinv1, hmono, ?_⟩
      intro e1 he1 hd1
      rcases List.mem_cons.mp he1 with heq | hmem
      · subst heq; rw [hdir] at hd1; cases hd1
      · exact hall e1 hmem hd1
    | true =>
      obtain ⟨header, dataRows, hparse⟩ := hdata e (List.mem_cons_self _ _) hdir
      obtain ⟨t, hload, hbuilt⟩ :=
        loadTable_spec std fs path metadataRows h e.Name header dataRows hmeta3 hparse
      have hinv2 : ∀ name t1, List.lookup name ((e.Name, t) :: tables) = some t1 →
          ∃ header1 dataRows1,
            parseCSV std fs (getCSVFilePath [path] name) = .ok (header1 :: dataRows1) ∧
              TableBuilt metadataRows name header1 dataRows1 t1
                (h ++ dataRows.map Row.mk) := by
        intro name t1 hl
        rw [List.lookup_cons] at hl
        cases hb : (name == e.Name) with
        | true =>
          have hname : name = e.Name := by simpa using hb
          simp only [hb, Option.some.injEq] at hl
          subst hl
          subst hname
          exact ⟨header, dataRows, hparse, hbuilt⟩
        | false =>
          simp only [hb] at hl
          obtain ⟨header1, dataRows1, hp1, hb1⟩ := hinv name t1 hl
          exact ⟨header1, dataRows1, hp1, tableBuilt_append _ _ _ _ _ _ _ hb1⟩
      obtain ⟨tables1, h1, hrun, hinv1, hmono, hall⟩ :=
        ih ((e.Name, t) :: tables) (h ++ dataRows.map Row.mk) hdata1 hinv2
      refine ⟨tables1, h1, by simp only [openTables, hdir, hload, hrun, Bool.not_true,
        Bool.false_eq_true, if_false], hinv1, ?_, ?_⟩
      · intro name hn
        apply hmono
        rw [List.lookup_cons]
        cases (name == e.Name) with
        | true => rfl
        | false => exact hn
      · intro e1 he1 hd1
        rcases List.mem_cons.mp he1 with heq | hmem
        · subst heq
          apply hmono
          simp [List.lookup_cons]
        · exact hall e1 hmem hd1
/-- C18, counterexample: with the header `a,a` and the metadata row
`table1,a,int`, which gives the column name `a` the type `int`, `Open` types the
first column `a` only: the second column `a` has the type `"string"`. -/
theorem open_repeated_header_types_first_only :
    overlayType [["table1", "a", "int"]] "table1" "a" = "int" ∧
    zeroDb.Open plainStd repeatedHeaderFS [] "/tmp/test_db" =
      .ok (⟨"/tmp/test_db", 1,
          [("table1", ⟨"table1", [⟨"a", "int"⟩, ⟨"a", "string"⟩], [0]⟩)]⟩,
        [⟨["1", "2"]⟩]) := by
  decide

/-- C18, amended: when the database directory exists, `version.txt` holds the
integer `version`, `metadata.csv` parses to rows of 3 fields and the data file of
every table directory parses to a header row followed by data rows, `Open`
returns a database with the given path and that version in which every table
directory has its table: named after the directory, its column names the header
fields in order, the first column of each name typed by the last metadata row
`(tableName, columnName, type)` with that non-empty column name, `"string"` when
there is none, a column that repeats an earlier name typed `"string"`, and its
rows the data rows after the header in file order. -/
theorem open_builds_tables (db0 : Database) (std : Std) (fs : FS) (h : Heap) (path : String)
    (versionContent : String) (version : Int) (metadataRows : List (List String))
    (tablesDir : List DirEntry)
    (hpath : fs.pathExists [path] = true)
    (hversion : fs.readFile [path, "version.txt"] = some versionContent)
    (hatoi : std.atoi versionContent = some version)
    (hmeta : parseCSV std fs [path, "metadata.csv"] = .ok metadataRows)
    (hmeta3 : ∀ row ∈ metadataRows, row.length = 3)
    (hdir : fs.readDir [path, ".csvdb"] = some tablesDir)
    (hdata : ∀ e ∈ tablesDir, e.IsDir = true → ∃ header dataRows,
      parseCSV std fs (getCSVFilePath [path] e.Name) = .ok (header :: dataRows)) :
    ∃ db1 h1, db0.Open std fs h path = .ok (db1, h1) ∧
      db1.Path = path ∧ db1.Version = version ∧
      ∀ e ∈ tablesDir, e.IsDir = true → ∀ header dataRows,
        parseCSV std fs (getCSVFilePath [path] e.Name) = .ok (header :: dataRows) →
        ∃ t, db1.Tables.lookup e.Name = some t ∧
          TableBuilt metadataRows e.Name header dataRows t h1 := by
  obtain ⟨tables1, h1, hrun, hinv, _, hall⟩ :=
    openTables_spec std fs path metadataRows hmeta3 tablesDir [] h hdata
      (fun name t hl => by cases hl)
  refine ⟨⟨path, version, tables1⟩, h1, ?_, rfl, rfl, ?_⟩
  · simp only [Database.Open, hpath, Bool.not_true, Bool.false_eq_true, if_false, hversion, hatoi,
      hmeta, hdir, hrun]
  · intro e he hd header dataRows hparse
    have hsome := hall e he hd
    cases hl : tables1.lookup e.Name with
    | none => simp [hl] at hsome
    | some t =>
      obtain ⟨header1, dataRows1, hp1, hb1⟩ := hinv e.Name t hl
      rw [hparse] at hp1
      simp only [Except.ok.injEq, List.cons.injEq] at hp1
      obtain ⟨e1, e2⟩ := hp1
      subst e1
      subst e2
      exact ⟨t, rfl, hb1⟩

/-- C18, amended, on the directory of `TestDatabaseOpen`. -/
theorem open_builds_tables_witness :
    ∃ db1 h1, zeroDb.Open plainStd openFS [] "/tmp/test_db" = .ok (db1, h1) ∧
      db1.Path = "/tmp/test_db" ∧ db1.Version = 1 ∧
      ∀ e ∈ [(⟨"table1", true⟩ : DirEntry), ⟨"table2", true⟩], e.IsDir = true →
        ∀ header dataRows,
        parseCSV plainStd openFS (getCSVFilePath ["/tmp/test_db"] e.Name) =
          .ok (header :: dataRows) →
        ∃ t, db1.Tables.lookup e.Name = some t ∧
          TableBuilt [["table1", "column1", "string"], ["table1", "column2", "string"],
            ["table2", "column1", "string"]] e.Name header dataRows t h1 :=
  open_builds_tables zeroDb plainStd openFS [] "/tmp/test_db" "1" 1
    [["table1", "column1", "string"], ["table1", "column2", "string"],
      ["table2", "column1", "string"]]
    [⟨"table1", true⟩, ⟨"table2", true⟩]
    (by decide) (by decide) (by decide) rfl (by decide) (by decide)
    (fun e he _ => by
      simp only [List.mem_cons, List.mem_singleton, List.not_mem_nil, or_false] at he
      rcases he with rfl | rfl
      · exact ⟨["column1", "column2"], [["1", "value1"], ["2", "value2"]], rfl⟩
      · exact ⟨["column1"], [["value3"], ["value4"]], rfl⟩)

/-! ## Errors leave the rows as they were -/

theorem checkRow_unknown (cols : List Column) (h : Heap) (p : RowPtr) (c : String) :
    ∀ l : List (String × String), checkRow cols h p l = .unknown c →
      c ∈ l.map Prod.fst ∧ findColumn cols c = none := by
  intro l
  induction l with
  | nil => intro hc; simp [checkRow] at hc
  | cons kv rest ih =>
    obtain ⟨k, v⟩ := kv
    intro hc
    simp only [checkRow] at hc
    cases hf : findColumn cols k with
    | none =>
      simp only [hf, Verdict.unknown.injEq] at hc
      subst hc
      exact ⟨List.mem_cons_self _ _, hf⟩
    | some i =>
      simp only [hf] at hc
      cases hp : h[p]? with
      | none => simp [hp] at hc
      | some r =>
        simp only [hp] at hc
        cases hv : r.Values[i]? with
        | none => simp [hv] at hc
        | some x =>
          simp only [hv] at hc
          split at hc
          · cases hc
          · obtain ⟨hmem, hnone⟩ := ih hc
            exact ⟨List.mem_cons_of_mem _ hmem, hnone⟩

theorem checkRow_matched_true (cols : List Column) (h : Heap) (p : RowPtr) :
    ∀ l : List (String × String), checkRow cols h p l = .matched true →
      ∀ c ∈ l.map Prod.fst, findColumn cols c ≠ none := by
  intro l
  induction l with
  | nil => intro _ c hc; cases hc
  | cons kv rest ih =>
    obtain ⟨k, v⟩ := kv
    intro hm c hc
    simp only [checkRow] at hm
    cases hf : findColumn cols k with
    | none => simp [hf] at hm
    | some i =>
      simp only [hf] at hm
      cases hp : h[p]? with
      | none => simp [hp] at hm
      | some r =>
        simp only [hp] at hm
        cases hv : r.Values[i]? with
        | none => simp [hv] at hm
        | some x =>
          simp only [hv] at hm
          split at hm
          · cases hm
          · simp only [List.map_cons, List.mem_cons] at hc
            rcases hc with hck | hcr
            · subst hck
              simp [hf]
            · exact ih hm c hcr

theorem mem_keys_of_perm {l entries : List (String × String)} (hperm : l.Perm entries)
    (c : String) : c ∈ l.map Prod.fst ↔ c ∈ entries.map Prod.fst :=
  (hperm.map Prod.fst).mem_iff

/-- When `Update` runs into an unknown condition column, the map holds a key
that is no column. -/
theorem updateLoop_error_unknown (t : Table) (idxs : List Nat) (values : List String)
    (m : StrMap) (entries : List (String × String)) (hm : ∀ k, (m.visit k).Perm entries) :
    ∀ (ps : List RowPtr) (k : Nat) (h : Heap) (msg : String) (t1 : Table) (h1 : Heap),
      t.updateLoop idxs values m k ps h = .error msg t1 h1 →
      ∃ c, c ∈ entries.map Prod.fst ∧ findColumn t.Columns c = none := by
  intro ps
  induction ps with
  | nil => intro k h msg t1 h1 hrun; simp [Table.updateLoop] at hrun
  | cons p ps ih =>
    intro k h msg t1 h1 hrun
    simp only [Table.updateLoop] at hrun
    cases hc : checkRow t.Columns h p (m.visit k) with
    | unknown c =>
      obtain ⟨hmem, hnone⟩ := checkRow_unknown t.Columns h p c _ hc
      exact ⟨c, (mem_keys_of_perm (hm k) c).mp hmem, hnone⟩
    | panic => simp [hc] at hrun
    | matched b =>
      cases b with
      | false =>
        simp only [hc] at hrun
        exact ih (k + 1) h msg t1 h1 hrun
      | true =>
        simp only [hc] at hrun
        cases hw : writeRow values p 0 idxs h with
        | none => simp [hw] at hrun
        | some h2 =>
          simp only [hw] at hrun
          exact ih (k + 1) h2 msg t1 h1 hrun

/-- When the map holds a key that is no column, no row satisfies a whole visit of
the conditions, so `Update` writes nothing before it returns. -/
theorem updateLoop_error_state (t : Table) (idxs : List Nat) (values : List String)
    (m : StrMap) (entries : List (String × String)) (hm : ∀ k, (m.visit k).Perm entries)
    (c : String) (hc : c ∈ entries.map Prod.fst) (hnone : findColumn t.Columns c = none) :
    ∀ (ps : List RowPtr) (k : Nat) (h : Heap) (msg : String) (t1 : Table) (h1 : Heap),
      t.updateLoop idxs values m k ps h = .error msg t1 h1 → t1 = t ∧ h1 = h := by
  intro ps
  induction ps with
  | nil => intro k h msg t1 h1 hrun; simp [Table.updateLoop] at hrun
  | cons p ps ih =>
    intro k h msg t1 h1 hrun
    simp only [Table.updateLoop] at hrun
    cases hcheck : checkRow t.Columns h p (m.visit k) with
    | unknown c1 =>
      simp only [hcheck, Effect.error.injEq] at hrun
      exact ⟨hrun.2.1.symm, hrun.2.2.symm⟩
    | panic => simp [hcheck] at hrun
    | matched b =>
      cases b with
      | false =>
        simp only [hcheck] at hrun
        exact ih (k + 1) h msg t1 h1 hrun
      | true =>
        have hall := checkRow_matched_true t.Columns h p _ hcheck c
          ((mem_keys_of_perm (hm k) c).mpr hc)
        exact absurd hnone hall

/-- C21: whenever `Update` or `Delete` returns an error (an unknown column in
`columns` or in the conditions), the table and every row object are exactly
what they were before the call: no row has been modified or removed, whatever
the order in which each loop visits the conditions. -/
theorem update_delete_error_atomic (t : Table) (h : Heap) (columns values : List String)
    (m : StrMap) (entries : List (String × String)) (hm : m.Represents entries) :
    (∀ msg t1 h1, t.Update h columns values m = .error msg t1 h1 → t1 = t ∧ h1 = h) ∧
    (∀ msg t1 h1, t.Delete h m = .error msg t1 h1 → t1 = t ∧ h1 = h) := by
  constructor
  · intro msg t1 h1 hrun
    unfold Table.Update at hrun
    cases hres : resolveColumns t.Columns columns with
    | error column =>
      simp only [hres, Effect.error.injEq] at hrun
      exact ⟨hrun.2.1.symm, hrun.2.2.symm⟩
    | ok idxs =>
      simp only [hres] at hrun
      obtain ⟨c, hc, hnone⟩ :=
        updateLoop_error_unknown t idxs values m entries hm.2 t.Rows 0 h msg t1 h1 hrun
      exact updateLoop_error_state t idxs values m entries hm.2 c hc hnone t.Rows 0 h msg t1 h1
        hrun
  · intro msg t1 h1 hrun
    unfold Table.Delete at hrun
    cases hscan : scanRows t.Columns h m 0 t.Rows with
    | unknown column =>
      simp only [hscan, Effect.error.injEq] at hrun
      exact ⟨hrun.2.1.symm, hrun.2.2.symm⟩
    | panic => simp [hscan] at hrun
    | rows ps => simp [hscan] at hrun

/-- C21 on the table of `TestExecute` with the conditions `id = 1`, `age = 7`
visited in this order: the first row satisfies `id = 1`, the column `age` does
not exist, both calls return the error and hand back the table and the rows
as they were. -/
theorem update_delete_error_atomic_witness :
    executeTable.Update executeRows ["name"] ["Carol"] unknownConditions =
      .error "condition column age not found" executeTable executeRows ∧
    executeTable.Delete executeRows unknownConditions =
      .error "column age not found" executeTable executeRows ∧
    (∀ msg t1 h1, executeTable.Update executeRows ["name"] ["Carol"] unknownConditions =
      .error msg t1 h1 → t1 = executeTable ∧ h1 = executeRows) ∧
    (∀ msg t1 h1, executeTable.Delete executeRows unknownConditions = .error msg t1 h1 →
      t1 = executeTable ∧ h1 = executeRows) :=
  ⟨by decide, by decide,
    update_delete_error_atomic executeTable executeRows ["name"] ["Carol"] unknownConditions
      [("id", "1"), ("age", "7")] ⟨by decide, fun _ => List.Perm.refl _⟩⟩

/-! ## Tables with a repeated column name or a short row -/

/-- C3, counterexample: on the table with two columns named `a`, `Insert` of
`["x", "y"]` succeeds and appends that row, and the `Select` of all columns with
no conditions that follows returns the old result followed by `["x", "x"]`, not
by the new row: both requested names resolve to the first column. -/
theorem insert_then_select_repeated_name :
    repeatedNameTable.Insert repeatedNameRows ["x", "y"] =
      .nil { repeatedNameTable with Rows := [0, 1] } [⟨["1", "2"]⟩, ⟨["x", "y"]⟩] ∧
    repeatedNameTable.Select repeatedNameRows repeatedNameTable.names (StrMap.ofList []) =
      .ok [⟨["1", "1"]⟩] ∧
    Table.Select { repeatedNameTable with Rows := [0, 1] } [⟨["1", "2"]⟩, ⟨["x", "y"]⟩]
        repeatedNameTable.names (StrMap.ofList []) =
      .ok [⟨["1", "1"]⟩, ⟨["x", "x"]⟩] := by
  decide

/-- C8, counterexample: the table of `TestExecute` with a third row of one value
(the row that `Upsert(["3"])` appends), the requested columns and the condition
key `name` exist and no row satisfies `name = "David"`, yet `Execute` panics at
`row.Values[1]` on the short row instead of returning an empty sequence. -/
theorem execute_short_row_panics :
    Table.Upsert { executeTable with Rows := [0, 1] } [⟨["1", "Alice"]⟩, ⟨["2", "Bob"]⟩] ["3"] =
      .nil executeTable shortRows ∧
    (∀ r ∈ shortRows, ¬ Satisfies executeTable.names [("name", "David")] r) ∧
    executeDb.Execute shortRows davidQuery = .panic := by
  decide

end Csvdb
